import Mathlib

/-!
Verification of the FileDimension reconciliation core.

This file embeds, as executable Lean definitions, the core of the
FileDimension repository:

* `ensure_path_exists`   — the path resolver (src/file_dimension/database.py)
* `process_directory`    — the reconciliation loop (src/file_dimension/processor.py)
* `find_duplicate_sets`  — the duplicate-finder query (src/file_dimension/database.py)
* `get_full_path_for_id` — path reconstruction (src/file_dimension/database.py)
* `calculate_sha384`     — the content fingerprinter (src/file_dimension/main.py)

Modelling conventions:

* The relational store is a list of rows plus a serial counter; SQL
  `SELECT`s become list filters, `.first()` is `List.head?`,
  `scalar_one` / `scalar_one_or_none` raise on the wrong multiplicity,
  exactly as SQLAlchemy does.
* The SQLAlchemy session is a pair of stores (`committed`, `current`)
  plus counters of executed INSERT/UPDATE statements; `commit` copies
  current to committed, `rollback` copies committed to current.
* Python `datetime` values are identified with their integer timestamp
  in microsecond ticks; `datetime.fromtimestamp(ts).timestamp()` is the
  identity under this identification, and Python's `int(float_ts)`
  (truncation toward zero) is `Int.tdiv` by the ticks-per-second unit.
* Python exceptions become `Except` values carrying the session state
  at the moment of the raise (the session's uncommitted mutations
  survive a raise, as they do in Python).
* The filesystem is a function from path strings to an abstract entry:
  a file (carrying its content digest — byte hashing itself is an
  external collaborator per the spec), a directory, an absent path, or
  an unreadable (permission-denied) file.
* `pathlib.PurePosixPath` parsing is modelled directly: split on the
  separator, drop empty and `.` components; a path is absolute iff it
  starts with the separator.  (The PurePosixPath special case for a
  double leading slash is not modelled; no claim exercises it.)
-/

/-! ## Path model (pathlib.PurePosixPath, POSIX flavour) -/

def slashChar : Char := '/'

def slashStr : String := "/"

def dotStr : String := "."

def emptyStr : String := ""

/-- Split a character list on a separator; `splitChar c cs` yields the
(possibly empty) chunks between occurrences of `c`. -/
def splitChar (sep : Char) : List Char → List (List Char)
  | [] => [[]]
  | c :: cs =>
    if c = sep then [] :: splitChar sep cs
    else
      match splitChar sep cs with
      | [] => [[c]]
      | g :: gs => (c :: g) :: gs

/-- The non-empty, non-`.` components of a path string, in order
(`PurePosixPath('/a//b/./c').parts` drops `''` and `'.'`). -/
def pathComponents (p : String) : List String :=
  ((splitChar slashChar p.data).map String.mk).filter
    (fun c => c ≠ emptyStr ∧ c ≠ dotStr)

/-- `PurePosixPath(p).is_absolute()`. -/
def isAbsolutePath (p : String) : Bool :=
  p.data.head? = some slashChar

/-- `PurePosixPath(p).parts`: for an absolute path the anchor `"/"` is
the first part. -/
def pathParts (p : String) : List String :=
  if isAbsolutePath p then slashStr :: pathComponents p else pathComponents p

/-- `str(PurePosixPath(p) / n)` for the shapes arising in this program:
`p` is `""`, `"/"`, or a slash-led path with no trailing slash, and `n`
is a single component. -/
def pathJoin (p n : String) : String :=
  if p = emptyStr then n
  else if p = slashStr then p ++ n
  else p ++ slashStr ++ n

/-! ## Data model: dim_file rows, the store, the session -/

/-- One row of `public.dim_file`. -/
structure FileRecord where
  id : Nat
  parent_id : Option Nat
  file_name : String
  is_directory : Bool
  file_hash : Option String
  file_size : Option Int
  device_id : Option Int
  inode : Option Int
  modified_at : Option Int
  mimetype : Option String
deriving Repr, DecidableEq

/-- The persisted table plus the serial id sequence. -/
structure Store where
  records : List FileRecord
  nextId : Nat
deriving Repr, DecidableEq

/-- A SQLAlchemy session: last committed state, current (possibly
uncommitted) state, and counters of INSERT / UPDATE statements
executed so far (statistics, unaffected by rollback). -/
structure Session where
  committed : Store
  current : Store
  insCount : Nat
  updCount : Nat
deriving Repr, DecidableEq

def commitS (db : Session) : Session := { db with committed := db.current }

def rollbackS (db : Session) : Session := { db with current := db.committed }

/-- The exceptions the embedded code can raise. -/
inductive PyErr where
  | valueError
  | noResultFound
  | multipleResultsFound
  | attributeError
  | permissionError
deriving Repr, DecidableEq

/-- The scan-scoped path cache (a Python dict, most recent binding
first). -/
abbrev Cache := List (String × Nat)

/-- Dict lookup: `k in cache` / `cache[k]`. -/
def cacheLookup (c : Cache) (k : String) : Option Nat :=
  match c with
  | [] => none
  | (q, i) :: rest => if q = k then some i else cacheLookup rest k

/-- One entry yielded by the tree walker (`find_files`): the walker is
an external collaborator; per the spec it yields path, name, parent
path, size, content type, modification timestamp and the physical
`(device, inode)` identity.  The `modified_at` datetime and the
`mtime_ts` float it derives from denote the same instant and are
identified with the single field `mtime`. -/
structure FileInfo where
  full_path : String
  file_name : String
  parent_path : String
  file_size : Int
  mimetype : Option String
  mtime : Int
  device_id : Int
  inode : Int
deriving Repr, DecidableEq

/-- Microsecond ticks per second (datetime precision). -/
def ticksPerSec : Int := 1000000

/-- Python `int(ts)` on a float timestamp: truncation toward zero,
which is `Int.tdiv` on tick counts. -/
def truncSec (t : Int) : Int := Int.tdiv t ticksPerSec

/-! ## SQL statements as store operations -/

/-- `SELECT id FROM dim_file WHERE parent_id IS NULL` row set. -/
def rootRows (s : Store) : List FileRecord :=
  s.records.filter (fun r => r.parent_id = none)

/-- `scalar_one()` on the root query: raises `NoResultFound` /
`MultipleResultsFound` unless exactly one row matches. -/
def scalarOneRoot (s : Store) : Except PyErr Nat :=
  match rootRows s with
  | [] => .error .noResultFound
  | [r] => .ok r.id
  | _ :: _ :: _ => .error .multipleResultsFound

/-- Rows of `SELECT id FROM dim_file WHERE parent_id = :p AND
file_name = :n AND is_directory = TRUE`. -/
def dirRows (s : Store) (pid : Nat) (nm : String) : List FileRecord :=
  s.records.filter
    (fun r => r.parent_id = some pid ∧ r.file_name = nm ∧ r.is_directory = true)

/-- `scalar_one_or_none()` on the child-directory query. -/
def scalarOneOrNoneDir (s : Store) (pid : Nat) (nm : String) :
    Except PyErr (Option Nat) :=
  match dirRows s pid nm with
  | [] => .ok none
  | [r] => .ok (some r.id)
  | _ :: _ :: _ => .error .multipleResultsFound

/-- `.first()` on `SELECT id, file_hash, modified_at FROM dim_file
WHERE parent_id = :p AND file_name = :n` (note: no `is_directory`
filter in the source). -/
def fileMatch (s : Store) (pid : Nat) (nm : String) : Option FileRecord :=
  (s.records.filter
    (fun r => r.parent_id = some pid ∧ r.file_name = nm)).head?

/-- `INSERT INTO dim_file (parent_id, file_name, is_directory) VALUES
(:p, :n, TRUE) RETURNING id`. -/
def insertDir (s : Store) (pid : Nat) (nm : String) : Store :=
  { records := s.records ++
      [{ id := s.nextId
         parent_id := some pid
         file_name := nm
         is_directory := true
         file_hash := none
         file_size := none
         device_id := none
         inode := none
         modified_at := none
         mimetype := none }]
    nextId := s.nextId + 1 }

/-- The reconciler's INSERT of a new file row, with every field taken
from the walker entry plus the computed fingerprint. -/
def insertFile (s : Store) (pid : Nat) (e : FileInfo) (fh : Option String) :
    Store :=
  { records := s.records ++
      [{ id := s.nextId
         parent_id := some pid
         file_name := e.file_name
         is_directory := false
         file_hash := fh
         file_size := some e.file_size
         device_id := some e.device_id
         inode := some e.inode
         modified_at := some e.mtime
         mimetype := e.mimetype }]
    nextId := s.nextId + 1 }

/-- The reconciler's UPDATE of the mutable fields of the row with the
given id. -/
def updateFile (s : Store) (targetId : Nat) (e : FileInfo)
    (fh : Option String) : Store :=
  { records := s.records.map (fun r =>
      if r.id = targetId then
        { r with
          file_hash := fh
          file_size := some e.file_size
          modified_at := some e.mtime
          mimetype := e.mimetype
          inode := some e.inode
          device_id := some e.device_id }
      else r)
    nextId := s.nextId }

/-! ## Content fingerprinter (`calculate_sha384`, main.py) -/

/-- What the filesystem holds at a path: a regular file (identified by
its content digest — hashing itself is external, per the spec), a
directory, nothing, or a file whose open raises a permission error. -/
inductive FSEntry where
  | file (digest : String)
  | dirEntry
  | absent
  | unreadable
deriving Repr, DecidableEq

def FS := String → FSEntry

/-- `calculate_sha384`: hashes the file's bytes; the `try/except`
catches exactly `FileNotFoundError` and `IsADirectoryError` and
returns `None` for those.  A `PermissionError` from `open` is not
caught and propagates. -/
def calculate_sha384 (fs : FS) (file_path : String) :
    Except PyErr (Option String) :=
  match fs file_path with
  | .file d => .ok (some d)
  | .dirEntry => .ok none
  | .absent => .ok none
  | .unreadable => .error .permissionError

/-! ## Path resolver (`ensure_path_exists`, database.py) -/

/-- Python's `if child_id_result:` truthiness on the looked-up child
id: a found id of `0` is falsy, exactly like `None`. -/
def truthyId (found : Option Nat) : Option Nat :=
  match found with
  | some cid => if cid = 0 then none else some cid
  | none => none

/-- The walk over `path_obj.parts[1:]` (database.py lines 41-70).
`pfx` is the accumulated prefix string `str(Path(*parts[:i+1]))`.
The found child id passes through `if child_id_result:` truthiness; a
falsy result falls through to the INSERT branch. -/
def ensureWalk (db : Session) (cache : Cache) (pfx : String)
    (parent_id : Nat) :
    List String → Except (PyErr × Session × Cache) (Nat × Session × Cache)
  | [] => .ok (parent_id, db, cache)
  | part :: rest =>
    let cur := pathJoin pfx part
    match cacheLookup cache cur with
    | some cid => ensureWalk db cache cur cid rest
    | none =>
      match scalarOneOrNoneDir db.current parent_id part with
      | .error e => .error (e, db, cache)
      | .ok found =>
        match truthyId found with
        | some cid => ensureWalk db ((cur, cid) :: cache) cur cid rest
        | none =>
          let newId := db.current.nextId
          let db1 : Session :=
            { db with
              current := insertDir db.current parent_id part
              insCount := db.insCount + 1 }
          ensureWalk db1 ((cur, newId) :: cache) cur newId rest

/-- `ensure_path_exists(db, absolute_path, cache)` (database.py lines
16-72).  The cache short-circuit precedes the absolute-path check; the
root is looked up with `scalar_one` and primed into the cache under
`"/"` before the walk. -/
def ensure_path_exists (db : Session) (absolute_path : String)
    (cache : Cache) :
    Except (PyErr × Session × Cache) (Nat × Session × Cache) :=
  match cacheLookup cache absolute_path with
  | some cid => .ok (cid, db, cache)
  | none =>
    if isAbsolutePath absolute_path then
      match scalarOneRoot db.current with
      | .error e => .error (e, db, cache)
      | .ok rootId =>
        ensureWalk db ((slashStr, rootId) :: cache) slashStr rootId
          (pathComponents absolute_path)
    else .error (.valueError, db, cache)

/-! ## Reconciler (`process_directory`, processor.py) -/

/-- The body of one iteration of the reconciliation loop (processor.py
lines 43-121) for the entry `e`: resolve the parent directory, hash
the file, look up the `(parent_id, file_name)` row, then INSERT,
UPDATE or skip.  On the update path the source first converts the
persisted `modified_at` with `.timestamp()` (an `AttributeError` on
`None`), then `.decode()`s the persisted hash inside a debug f-string
(an `AttributeError` on `None`), then compares decoded hash against
the fresh fingerprint and the two timestamps truncated to whole
seconds. -/
def processEntry (fs : FS) (db : Session) (cache : Cache) (e : FileInfo) :
    Except (PyErr × Session × Cache) (Session × Cache) :=
  match ensure_path_exists db e.parent_path cache with
  | .error (err, db1, c1) => .error (err, db1, c1)
  | .ok (parent_id, db1, c1) =>
    match calculate_sha384 fs e.full_path with
    | .error err => .error (err, db1, c1)
    | .ok file_hash =>
      match fileMatch db1.current parent_id e.file_name with
      | none =>
        .ok ({ db1 with
                current := insertFile db1.current parent_id e file_hash
                insCount := db1.insCount + 1 }, c1)
      | some existing =>
        match existing.modified_at with
        | none => .error (.attributeError, db1, c1)
        | some existing_mtime =>
          match existing.file_hash with
          | none => .error (.attributeError, db1, c1)
          | some existing_hash =>
            if some existing_hash ≠ file_hash ∨
                truncSec existing_mtime ≠ truncSec e.mtime then
              .ok ({ db1 with
                      current := updateFile db1.current existing.id e file_hash
                      updCount := db1.updCount + 1 }, c1)
            else
              .ok (db1, c1)

/-- The enumerated loop (processor.py lines 33-123): break once
`max_files > 0 and i >= max_files`; after each processed entry, commit
when `i % 250 == 0`.  An exception carries the session state at the
raise out of the loop. -/
def processLoop (fs : FS) (max_files : Int) :
    Session → Cache → Nat → List FileInfo → Except (PyErr × Session) Session
  | db, _, _, [] => .ok db
  | db, cache, i, e :: rest =>
    if max_files > 0 ∧ max_files ≤ (i : Int) then .ok db
    else
      match processEntry fs db cache e with
      | .error (err, db1, _) => .error (err, db1)
      | .ok (db1, c1) =>
        let db2 := if i % 250 = 0 then commitS db1 else db1
        processLoop fs max_files db2 c1 (i + 1) rest

/-- `process_directory` minus its decorator: run the loop from an
empty cache, final-commit on success; on any exception, roll back the
session and re-raise (processor.py lines 21-129). -/
def process_directory_body (db : Session) (stream : List FileInfo)
    (fs : FS) (max_files_override : Int) : Session × Option PyErr :=
  match processLoop fs max_files_override db [] 0 stream with
  | .ok db1 => (commitS db1, none)
  | .error (err, db1) => (rollbackS db1, some err)

/-- `process_directory` as callers see it: the function is wrapped in
`@logger.catch`, whose default `reraise=False` logs and swallows the
re-raised exception, so the caller observes a normal return. -/
def process_directory (db : Session) (stream : List FileInfo) (fs : FS)
    (max_files_override : Int) : Session × Option PyErr :=
  ((process_directory_body db stream fs max_files_override).1, none)

/-! ## Duplicate finder (`find_duplicate_sets`, database.py) -/

def hexDigitChar (n : Nat) : Char :=
  if n < 10 then Char.ofNat (48 + n) else Char.ofNat (87 + n)

/-- Postgres `encode(file_hash, 'hex')`.  The stored `file_hash` bytea
holds the bytes of the hex-digest string the reconciler inserted;
digests are ASCII, so their bytes are their code points. -/
def encodeHex (s : String) : String :=
  String.mk (s.data.foldr
    (fun c acc =>
      hexDigitChar ((c.toNat / 16) % 16) :: hexDigitChar (c.toNat % 16) :: acc)
    [])

/-- One row of the duplicate query's result:
`(file_hash_hex, duplicate_count, total_wasted_space)`.  `SUM` over a
nullable column is `NULL` when no non-null value exists, else the sum
of the non-null values. -/
structure DupSet where
  file_hash_hex : String
  duplicate_count : Nat
  total_wasted_space : Option Int
deriving Repr, DecidableEq

/-- The rows of the group keyed by hash `h` (the `GROUP BY file_hash`
group): all records whose `file_hash` equals `h`; rows with a null
hash are excluded by the `WHERE file_hash IS NOT NULL` clause. -/
def groupFor (s : Store) (h : String) : List FileRecord :=
  s.records.filter (fun r => r.file_hash = some h)

/-- The distinct non-null hash values, i.e. the group keys. -/
def groupKeys (s : Store) : List String :=
  (s.records.filterMap (fun r => r.file_hash)).dedup

/-- `COUNT(DISTINCT (device_id, inode))` within a group. -/
def distinctPairCount (g : List FileRecord) : Nat :=
  ((g.map (fun r => (r.device_id, r.inode))).dedup).length

/-- `SUM(file_size)` within a group (SQL `SUM`: null when every value
is null, otherwise the sum of the non-null values). -/
def sumSizes (g : List FileRecord) : Option Int :=
  match g.filterMap (fun r => r.file_size) with
  | [] => none
  | x :: xs => some ((x :: xs).sum)

/-- The `ORDER BY total_wasted_space DESC` comparison; Postgres sorts
nulls first under `DESC`. -/
def wastedGE (a b : Option Int) : Bool :=
  match a, b with
  | none, _ => true
  | some _, none => false
  | some x, some y => y ≤ x

/-- The groups the query reports, in order: group, keep only groups
with more than one distinct `(device_id, inode)` pair, order by
descending wasted space (SQL fixes no sorting algorithm; any sort
consistent with the ordering refines it), cap at `limit`. -/
def reportedGroups (s : Store) (limit : Nat) :
    List (String × List FileRecord) :=
  (List.insertionSort
    (fun a b => wastedGE (sumSizes a.2) (sumSizes b.2) = true)
    (((groupKeys s).map (fun h => (h, groupFor s h))).filter
      (fun g => 1 < distinctPairCount g.2))).take limit

/-- `find_duplicate_sets(db, limit)` (database.py lines 75-107). -/
def find_duplicate_sets (s : Store) (limit : Nat) : List DupSet :=
  (reportedGroups s limit).map (fun g =>
    { file_hash_hex := encodeHex g.1
      duplicate_count := g.2.length
      total_wasted_space := sumSizes g.2 })

/-! ## Path reconstruction (`get_full_path_for_id`, database.py) -/

/-- The id → path memo cache. -/
abbrev PathCache := List (Nat × String)

def pathCacheLookup (c : PathCache) (k : Nat) : Option String :=
  match c with
  | [] => none
  | (q, p) :: rest => if q = k then some p else pathCacheLookup rest k

/-- `SELECT parent_id, file_name FROM dim_file WHERE id = :id` with
`.first()`. -/
def recordById (s : Store) (file_id : Nat) : Option FileRecord :=
  (s.records.filter (fun r => r.id = file_id)).head?

/-- `get_full_path_for_id(db, file_id, cache)` (database.py lines
110-131), with an explicit recursion-depth fuel (Python recursion;
`none` models non-termination on a cyclic parent chain).  A missing
row returns the empty string without caching; the root caches and
returns `"/"`; otherwise the parent's path is joined with the row's
own name and cached. -/
def get_full_path_for_id (s : Store) :
    Nat → Nat → PathCache → Option (String × PathCache)
  | 0, _, _ => none
  | fuel + 1, file_id, cache =>
    match pathCacheLookup cache file_id with
    | some p => some (p, cache)
    | none =>
      match recordById s file_id with
      | none => some (emptyStr, cache)
      | some row =>
        match row.parent_id with
        | none => some (slashStr, (file_id, slashStr) :: cache)
        | some pid =>
          match get_full_path_for_id s fuel pid cache with
          | none => none
          | some (pp, c1) =>
            some (pathJoin pp row.file_name,
                  (file_id, pathJoin pp row.file_name) :: c1)

/-- Modelled from the spec: the recursive path-reconstruction
definition of spec §4.4 — the root's path is `/`, any other record's
path is its resolved parent's path joined with its own name, and an
identity without a record yields the empty result.  Stated with the
same fuel discipline so the two recursions can be compared. -/
def fullPathSpecRec (s : Store) : Nat → Nat → Option String
  | 0, _ => none
  | fuel + 1, file_id =>
    match recordById s file_id with
    | none => some emptyStr
    | some row =>
      match row.parent_id with
      | none => some slashStr
      | some pid =>
        (fullPathSpecRec s fuel pid).map (fun pp => pathJoin pp row.file_name)

/-! ## Invariants and sample data -/

/-- The §3 data-model invariant: a directory record's `content_hash`
and `size` are always null. -/
def DirInv (s : Store) : Prop :=
  ∀ r ∈ s.records, r.is_directory = true → r.file_hash = none ∧ r.file_size = none

/-- Surrogate-id well-formedness: ids are pairwise distinct and below
the serial counter. -/
def IdWF (s : Store) : Prop :=
  (s.records.map (fun r => r.id)).Nodup ∧ ∀ r ∈ s.records, r.id < s.nextId

/-- Store well-formedness for the reconciliation theorems: ids are
well-formed, positive (the serial sequence starts at 1), and no two
directory records share a `(parent_id, name)` pair. -/
def StoreWF (s : Store) : Prop :=
  IdWF s ∧ 1 ≤ s.nextId ∧ (∀ r ∈ s.records, 1 ≤ r.id) ∧
  s.records.Pairwise (fun a b =>
    ¬(a.is_directory = true ∧ b.is_directory = true ∧
      a.parent_id = b.parent_id ∧ a.file_name = b.file_name))

/-- A seeded root directory row, as the test fixture creates it. -/
def sampleRoot : FileRecord :=
  { id := 1
    parent_id := none
    file_name := slashStr
    is_directory := true
    file_hash := none
    file_size := none
    device_id := none
    inode := none
    modified_at := none
    mimetype := none }

def sampleStore : Store := { records := [sampleRoot], nextId := 2 }

def sampleSession : Session :=
  { committed := sampleStore
    current := sampleStore
    insCount := 0
    updCount := 0 }

def relStr : String := "rel"

def lockedPath : String := "/locked.bin"

/-- A filesystem on which `lockedPath` exists but is unreadable. -/
def fsLocked : FS := fun p => if p = lockedPath then .unreadable else .absent

/-! ## C9 — relative paths and the resolver -/

/-- C9 counterexample: the claim says a non-absolute input raises a
usage error immediately "regardless of the contents of the scan-scoped
cache", but the cache short-circuit precedes the absolute-path check:
with the relative string present as a cache key, the resolver returns
the cached identity and raises nothing. -/
theorem c9_counterexample_cached_relative :
    isAbsolutePath relStr = false ∧
    ensure_path_exists sampleSession relStr [(relStr, 7)] =
      .ok (7, sampleSession, [(relStr, 7)]) := by
  constructor
  · rfl
  · rfl

/-- C9 (amended): for every non-absolute input path that is not a key
of the scan-scoped cache, the resolver raises a usage error
(`ValueError`) immediately, before any store lookup or record
creation — the session and cache are returned unchanged. -/
theorem c9_amended_relative_rejected (db : Session) (p : String)
    (cache : Cache) (habs : isAbsolutePath p = false)
    (hmiss : cacheLookup cache p = none) :
    ensure_path_exists db p cache = .error (.valueError, db, cache) := by
  unfold ensure_path_exists
  rw [hmiss, habs]
  simp

/-- C9 witness: the amended theorem applied at a concrete relative
path, empty cache and the sample session. -/
theorem c9_witness :
    ensure_path_exists sampleSession relStr [] =
      .error (.valueError, sampleSession, []) :=
  c9_amended_relative_rejected sampleSession relStr [] (by rfl) (by rfl)

/-! ## C6 — fingerprinting of missing / unreadable files -/

/-- C6 counterexample: the claim says a missing *or unreadable* file
yields an absent fingerprint rather than raising.  `calculate_sha384`
catches only `FileNotFoundError` and `IsADirectoryError`; on an
unreadable (permission-denied) file the `open` raises a
`PermissionError`, which propagates instead of producing an absent
fingerprint. -/
theorem c6_counterexample_unreadable_raises :
    calculate_sha384 fsLocked lockedPath = .error .permissionError ∧
    ¬ calculate_sha384 fsLocked lockedPath = .ok none := by
  constructor
  · rfl
  · intro h
    rw [show calculate_sha384 fsLocked lockedPath =
          .error .permissionError from rfl] at h
    exact Except.noConfusion h

/-- C6 (amended): for a file missing (`FileNotFoundError`) or replaced
by a directory (`IsADirectoryError`) at fingerprinting time, the
fingerprint function returns an absent value rather than raising.
The reconciliation step then records the absent fingerprint and
succeeds (so the loop continues) in exactly these cases: no matching
`(parent_id, name)` record — a new row with a null hash is inserted;
a matching record carrying a non-null hash and mtime — the row is
updated in place, nulling its hash (`some ≠ none` always trips the
update trigger).  It does not always continue: a matching record
whose `modified_at` or `file_hash` is null makes the step raise
`AttributeError`, aborting the scan (cf. C7) — and an unreadable file
makes the fingerprinter itself raise (the counterexample).  Finally,
every successful step hands the loop on to the rest of the stream. -/
theorem c6_amended_absent_fingerprint :
    (∀ (fs : FS) (p : String), fs p = .absent ∨ fs p = .dirEntry →
      calculate_sha384 fs p = .ok none) ∧
    (∀ (fs : FS) (db db1 : Session) (cache c1 : Cache) (e : FileInfo)
      (pid : Nat),
      (fs e.full_path = .absent ∨ fs e.full_path = .dirEntry) →
      ensure_path_exists db e.parent_path cache = .ok (pid, db1, c1) →
      (fileMatch db1.current pid e.file_name = none →
        processEntry fs db cache e =
          .ok ({ db1 with
                  current := insertFile db1.current pid e none
                  insCount := db1.insCount + 1 }, c1)) ∧
      (∀ (r : FileRecord) (h : String) (t : Int),
        fileMatch db1.current pid e.file_name = some r →
        r.modified_at = some t → r.file_hash = some h →
        processEntry fs db cache e =
          .ok ({ db1 with
                  current := updateFile db1.current r.id e none
                  updCount := db1.updCount + 1 }, c1)) ∧
      (∀ r : FileRecord, fileMatch db1.current pid e.file_name = some r →
        r.modified_at = none ∨ r.file_hash = none →
        processEntry fs db cache e =
          .error (.attributeError, db1, c1))) ∧
    (∀ (fs : FS) (mx : Int) (db db1 : Session) (cache c1 : Cache)
      (i : Nat) (e : FileInfo) (rest : List FileInfo),
      ¬ (mx > 0 ∧ mx ≤ (i : Int)) →
      processEntry fs db cache e = .ok (db1, c1) →
      processLoop fs mx db cache i (e :: rest) =
        processLoop fs mx (if i % 250 = 0 then commitS db1 else db1) c1
          (i + 1) rest) := by
  refine ⟨?_, ?_, ?_⟩
  · intro fs p h
    rcases h with h | h <;> simp [calculate_sha384, h]
  · intro fs db db1 cache c1 e pid hfse hens
    have hcal : calculate_sha384 fs e.full_path = .ok none := by
      rcases hfse with h | h <;> simp [calculate_sha384, h]
    refine ⟨?_, ?_, ?_⟩
    · intro hmatch
      unfold processEntry
      rw [hens]
      simp only [hcal]
      rw [hmatch]
    · intro r h t hm hmt hfh
      unfold processEntry
      rw [hens]
      simp only [hcal]
      rw [hm]
      simp only [hmt, hfh]
      rw [if_pos (Or.inl (Option.some_ne_none h))]
    · intro r hm hnul
      unfold processEntry
      rw [hens]
      simp only [hcal]
      rw [hm]
      cases hmt : r.modified_at with
      | none =>
        simp only [hmt]
      | some t =>
        simp only [hmt]
        have hfh : r.file_hash = none := by
          rcases hnul with h1 | h1
          · rw [hmt] at h1
            exact Option.noConfusion h1
          · exact h1
        simp only [hfh]
  · intro fs mx db db1 cache c1 i e rest hcap hpe
    simp only [processLoop, if_neg hcap, hpe]

/-- A concrete entry whose backing file has vanished. -/
def sampleMissingEntry : FileInfo :=
  { full_path := "/gone.txt"
    file_name := "gone.txt"
    parent_path := "/"
    file_size := 10
    mimetype := none
    mtime := 1700000000000000
    device_id := 1
    inode := 42 }

def fsAllAbsent : FS := fun _ => .absent

/-! ## C5 — failure semantics of the reconciliation loop -/

def xPath : String := "/x.txt"

def xName : String := "x.txt"

def hX : String := "h1"

/-- A well-formed entry under the root. -/
def entryX : FileInfo :=
  { full_path := xPath
    file_name := xName
    parent_path := slashStr
    file_size := 10
    mimetype := none
    mtime := 1700000000123456
    device_id := 1
    inode := 42 }

/-- An entry whose parent path is relative, making the resolver raise
mid-loop. -/
def entryRel : FileInfo :=
  { full_path := xPath
    file_name := xName
    parent_path := relStr
    file_size := 10
    mimetype := none
    mtime := 0
    device_id := 1
    inode := 42 }

def fsX : FS := fun p => if p = xPath then .file hX else .absent

/-- C5 evaluated at a failing input.  Streaming three entries where
the second raises: the loop aborts (the third entry is never
processed — exactly one INSERT is executed), the uncommitted batch is
rolled back (`current = committed`), the batch committed at the first
boundary persists (the first entry's row is in `committed`), and the
inner handler re-raises — but `process_directory` is wrapped in
`@logger.catch`, whose default `reraise=False` swallows the re-raised
exception, so the caller observes a normal, error-free return, contra
the claim (and contra the source's own comment that the exception is
re-raised "so the caller knows something went wrong"). -/
theorem c5_error_swallowed_demo :
    (process_directory_body sampleSession [entryX, entryRel, entryX]
        fsX 0).2 = some .valueError ∧
    (process_directory_body sampleSession [entryX, entryRel, entryX]
        fsX 0).1.insCount = 1 ∧
    (process_directory_body sampleSession [entryX, entryRel, entryX]
        fsX 0).1.current =
      (process_directory_body sampleSession [entryX, entryRel, entryX]
        fsX 0).1.committed ∧
    (process_directory_body sampleSession [entryX, entryRel, entryX]
        fsX 0).1.committed.records =
      sampleStore.records ++
        [{ id := 2
           parent_id := some 1
           file_name := xName
           is_directory := false
           file_hash := some hX
           file_size := some 10
           device_id := some 1
           inode := some 42
           modified_at := some 1700000000123456
           mimetype := none }] ∧
    (process_directory sampleSession [entryX, entryRel, entryX] fsX 0).2 =
      none :=
  ⟨rfl, rfl, rfl, rfl, rfl⟩

/-! ## C7 — matched records with null hash / mtime -/

/-- C7: when the `(parent_id, name)` lookup matches a record whose
persisted `modified_at` or `content_hash` is null, the update path
raises an `AttributeError` (`None.timestamp()` on line 89, or
`None.decode()` in the line-93 debug f-string) instead of updating or
skipping; and when the matched record carries both fields the entry is
processed without raising — reconciliation is total over matched
records exactly under that precondition. -/
theorem c7_null_fields_raise (fs : FS) (db db1 : Session)
    (cache c1 : Cache) (e : FileInfo) (pid : Nat) (r : FileRecord)
    (fh : Option String)
    (hens : ensure_path_exists db e.parent_path cache = .ok (pid, db1, c1))
    (hhash : calculate_sha384 fs e.full_path = .ok fh)
    (hmatch : fileMatch db1.current pid e.file_name = some r) :
    ((r.modified_at = none ∨ r.file_hash = none) →
      processEntry fs db cache e = .error (.attributeError, db1, c1)) ∧
    (∀ h t, r.file_hash = some h → r.modified_at = some t →
      ∃ db2, processEntry fs db cache e = .ok (db2, c1)) := by
  simp only [processEntry, hens, hhash, hmatch]
  constructor
  · intro hnull
    rcases hnull with hm | hh
    · rw [hm]
    · cases hmt : r.modified_at with
      | none => rfl
      | some t => rw [hh]
  · intro h t hh ht
    simp only [hh, ht]
    by_cases hcond : some h ≠ fh ∨ truncSec t ≠ truncSec e.mtime
    · exact ⟨_, by rw [if_pos hcond]⟩
    · exact ⟨_, by rw [if_neg hcond]⟩

/-- A persisted file row for `x.txt` with hash `h1`, as the first scan
would create it. -/
def recX : FileRecord :=
  { id := 2
    parent_id := some 1
    file_name := xName
    is_directory := false
    file_hash := some hX
    file_size := some 10
    device_id := some 1
    inode := some 42
    modified_at := some 1700000000123456
    mimetype := none }

/-- The same row with a null hash (e.g. recorded while the file was
unreadable on disk). -/
def recXNullHash : FileRecord := { recX with file_hash := none }

def storeNullHash : Store := { records := [sampleRoot, recXNullHash], nextId := 3 }

def sessionNullHash : Session :=
  { committed := storeNullHash
    current := storeNullHash
    insCount := 0
    updCount := 0 }

/-- C7 witness: over a store whose matched record has a null hash, the
step raises `AttributeError`. -/
theorem c7_witness :
    processEntry fsX sessionNullHash [] entryX =
      .error (.attributeError, sessionNullHash, [(slashStr, 1)]) :=
  (c7_null_fields_raise fsX sessionNullHash sessionNullHash []
    [(slashStr, 1)] entryX 1 recXNullHash (some hX)
    (by rfl) (by rfl) (by rfl)).1 (Or.inr rfl)

/-! ## C1 — the found-record update trigger -/

/-- C1: for an entry whose `(parent_id, name)` matches an existing
persisted record carrying hash `h` and modification time `t`, the
record is updated in place — all mutable fields (`content_hash`,
`size`, `modified_at`, `content_type`, `device_id`, `inode`) set via
`updateFile`, one UPDATE executed — if and only if the persisted hash
differs from the fresh fingerprint or the two modification times
differ once truncated to whole seconds; otherwise the session is
returned untouched (no write on that record). -/
theorem c1_found_update_iff (fs : FS) (db db1 : Session)
    (cache c1 : Cache) (e : FileInfo) (pid : Nat) (r : FileRecord)
    (fh : Option String) (h : String) (t : Int)
    (hens : ensure_path_exists db e.parent_path cache = .ok (pid, db1, c1))
    (hhash : calculate_sha384 fs e.full_path = .ok fh)
    (hmatch : fileMatch db1.current pid e.file_name = some r)
    (hh : r.file_hash = some h) (ht : r.modified_at = some t) :
    ((some h ≠ fh ∨ truncSec t ≠ truncSec e.mtime) →
      processEntry fs db cache e =
        .ok ({ db1 with
                current := updateFile db1.current r.id e fh
                updCount := db1.updCount + 1 }, c1)) ∧
    ((some h = fh ∧ truncSec t = truncSec e.mtime) →
      processEntry fs db cache e = .ok (db1, c1)) := by
  simp only [processEntry, hens, hhash, hmatch, hh, ht]
  constructor
  · intro hcond
    rw [if_pos hcond]
  · intro hsame
    rw [if_neg (by push_neg; exact ⟨hsame.1, hsame.2⟩)]

def storeX : Store := { records := [sampleRoot, recX], nextId := 3 }

def sessionX : Session :=
  { committed := storeX
    current := storeX
    insCount := 0
    updCount := 0 }

def hY : String := "h2"

/-- A re-scan of `x.txt` now reporting different content. -/
def fsY : FS := fun p => if p = xPath then .file hY else .absent

/-- C1 witness: re-scanning with a changed hash updates the row in
place; re-scanning with identical hash and second-truncated time is a
no-op on the session. -/
theorem c1_witness :
    processEntry fsY sessionX [] entryX =
      .ok ({ sessionX with
              current := updateFile storeX 2 entryX (some hY)
              updCount := 1 }, [(slashStr, 1)]) ∧
    processEntry fsX sessionX [] entryX = .ok (sessionX, [(slashStr, 1)]) := by
  constructor
  · exact (c1_found_update_iff fsY sessionX sessionX [] [(slashStr, 1)]
      entryX 1 recX (some hY) hX 1700000000123456
      (by rfl) (by rfl) (by rfl) (by rfl) (by rfl)).1
      (Or.inl (by decide))
  · exact (c1_found_update_iff fsX sessionX sessionX [] [(slashStr, 1)]
      entryX 1 recX (some hX) hX 1700000000123456
      (by rfl) (by rfl) (by rfl) (by rfl) (by rfl)).2
      ⟨rfl, rfl⟩

/-! ## C8 — path reconstruction refines the spec recursion -/

/-- C8: `get_full_path_for_id`, run with an empty memo cache, computes
exactly the spec's recursive function: a record with null `parent_id`
reconstructs to `"/"`, every other record reconstructs to its parent's
path joined with its own name, and an identity with no record yields
the empty string (returned immediately, nothing cached). -/
theorem c8_path_reconstruction_refines_spec :
    (∀ (s : Store) (fuel file_id : Nat) (p : String) (c : PathCache),
      get_full_path_for_id s fuel file_id [] = some (p, c) →
      fullPathSpecRec s fuel file_id = some p) ∧
    (∀ (s : Store) (fuel file_id : Nat), recordById s file_id = none →
      get_full_path_for_id s (fuel + 1) file_id [] = some (emptyStr, [])) := by
  constructor
  · intro s fuel
    induction fuel with
    | zero =>
      intro fid p c h
      simp [get_full_path_for_id] at h
    | succ n ih =>
      intro fid p c h
      simp only [get_full_path_for_id, pathCacheLookup] at h
      cases hrec : recordById s fid with
      | none =>
        simp only [hrec, Option.some.injEq, Prod.mk.injEq] at h
        simp [fullPathSpecRec, hrec, h.1]
      | some row =>
        cases hp : row.parent_id with
        | none =>
          simp only [hrec, hp, Option.some.injEq, Prod.mk.injEq] at h
          simp [fullPathSpecRec, hrec, hp, h.1]
        | some pid =>
          simp only [hrec, hp] at h
          cases hg : get_full_path_for_id s n pid [] with
          | none =>
            rw [hg] at h
            exact absurd h (by simp)
          | some pr =>
            obtain ⟨pp, c1⟩ := pr
            rw [hg] at h
            simp only [Option.some.injEq, Prod.mk.injEq] at h
            have hspec := ih pid pp c1 hg
            simp [fullPathSpecRec, hrec, hp, hspec, h.1]
  · intro s fuel fid hrec
    simp [get_full_path_for_id, pathCacheLookup, hrec]

/-- C8 witness: over the sample store with `x.txt` under the root, the
reconstruction of id 2 from an empty cache is `"/x.txt"`, so the spec
recursion computes the same; and a missing id reconstructs to the
empty string. -/
theorem c8_witness :
    fullPathSpecRec storeX 10 2 = some xPath ∧
    get_full_path_for_id storeX 3 99 [] = some (emptyStr, []) :=
  ⟨c8_path_reconstruction_refines_spec.1 storeX 10 2 xPath
      [(2, xPath), (1, slashStr)] (by rfl),
   c8_path_reconstruction_refines_spec.2 storeX 2 99 (by rfl)⟩

/-! ## Duplicate-finder lemmas -/

theorem wastedGE_trans (a b c : Option Int) (hab : wastedGE a b = true)
    (hbc : wastedGE b c = true) : wastedGE a c = true := by
  cases a <;> cases b <;> cases c <;> simp [wastedGE] at * <;> omega

theorem wastedGE_total (a b : Option Int) :
    wastedGE a b = true ∨ wastedGE b a = true := by
  cases a <;> cases b <;> simp [wastedGE] <;> omega

/-- Each reported group is the store's group for its own key and has
more than one distinct physical identity. -/
theorem reportedGroups_mem (s : Store) (limit : Nat)
    (g : String × List FileRecord) (hg : g ∈ reportedGroups s limit) :
    g.2 = groupFor s g.1 ∧ 1 < distinctPairCount g.2 := by
  unfold reportedGroups at hg
  have h1 := List.take_subset _ _ hg
  rw [List.mem_insertionSort] at h1
  rw [List.mem_filter] at h1
  obtain ⟨hmem, hq⟩ := h1
  rw [List.mem_map] at hmem
  obtain ⟨h, _, hfh⟩ := hmem
  subst hfh
  simp only [decide_eq_true_eq] at hq
  exact ⟨rfl, hq⟩

theorem one_lt_length_of_two_mem {α : Type} {l : List α} {a b : α}
    (ha : a ∈ l) (hb : b ∈ l) (hne : a ≠ b) : 1 < l.length := by
  cases l with
  | nil => cases ha
  | cons x t =>
    cases t with
    | nil =>
      rw [List.mem_singleton] at ha hb
      exact absurd (ha.trans hb.symm) hne
    | cons y u =>
      simp only [List.length_cons]
      omega

theorem length_le_one_of_all_eq {α : Type} {l : List α} {a : α}
    (hn : l.Nodup) (ha : ∀ x ∈ l, x = a) : l.length ≤ 1 := by
  cases l with
  | nil => simp
  | cons x t =>
    cases t with
    | nil => simp
    | cons y u =>
      have hx : x = a := ha x (by simp)
      have hy : y = a := ha y (by simp)
      rw [List.nodup_cons] at hn
      exact absurd (by simp [hx, hy]) hn.1

/-- The pre-`LIMIT` report list is sorted by descending wasted
space. -/
theorem reportedGroups_pairwise (s : Store) (limit : Nat) :
    (reportedGroups s limit).Pairwise
      (fun a b => wastedGE (sumSizes a.2) (sumSizes b.2) = true) := by
  unfold reportedGroups
  refine List.Pairwise.sublist (List.take_sublist _ _) ?_
  haveI : IsTotal (String × List FileRecord)
      (fun a b => wastedGE (sumSizes a.2) (sumSizes b.2) = true) :=
    ⟨fun a b => wastedGE_total _ _⟩
  haveI : IsTrans (String × List FileRecord)
      (fun a b => wastedGE (sumSizes a.2) (sumSizes b.2) = true) :=
    ⟨fun a b c => wastedGE_trans _ _ _⟩
  exact List.sorted_insertionSort _ _

/-! ## C4 — wasted space, ordering, limit -/

/-- C4: every reported duplicate set carries `SUM(size)` over all
records of its hash group (not `size × (count − 1)`) as its wasted
space and `COUNT(*)` of the group as its count; the returned sequence
is ordered by descending wasted space (SQL `DESC`, nulls first); and
at most `limit` groups are returned. -/
theorem c4_wasted_space_order_limit (s : Store) (limit : Nat) :
    (∀ d ∈ find_duplicate_sets s limit, ∃ h,
      d.file_hash_hex = encodeHex h ∧
      d.duplicate_count = (groupFor s h).length ∧
      d.total_wasted_space = sumSizes (groupFor s h)) ∧
    (find_duplicate_sets s limit).Pairwise
      (fun a b => wastedGE a.total_wasted_space b.total_wasted_space = true) ∧
    (find_duplicate_sets s limit).length ≤ limit := by
  refine ⟨?_, ?_, ?_⟩
  · intro d hd
    unfold find_duplicate_sets at hd
    rw [List.mem_map] at hd
    obtain ⟨g, hg, hgd⟩ := hd
    have hgr := (reportedGroups_mem s limit g hg).1
    refine ⟨g.1, ?_, ?_, ?_⟩ <;> rw [← hgd] <;> simp [← hgr]
  · unfold find_duplicate_sets
    have hp := reportedGroups_pairwise s limit
    exact hp.map _ (fun a b hab => hab)
  · unfold find_duplicate_sets reportedGroups
    rw [List.length_map]
    exact List.length_take_le _ _

/-- Sample records for the duplicate-query witnesses: `aa` is shared
by two rows with the same `(device, inode)` (a hard-link pair), `bb`
by two rows with distinct physical identities. -/
def haa : String := "aa"

def hbb : String := "bb"

def mkDupRec (i : Nat) (nm : String) (h : String) (d ino sz : Int) :
    FileRecord :=
  { id := i
    parent_id := some 1
    file_name := nm
    is_directory := false
    file_hash := some h
    file_size := some sz
    device_id := some d
    inode := some ino
    modified_at := some 0
    mimetype := none }

def nmA : String := "a1"

def nmB : String := "a2"

def nmC : String := "b1"

def nmD : String := "b2"

def dupStore : Store :=
  { records := [sampleRoot, mkDupRec 2 nmA haa 1 42 10, mkDupRec 3 nmB haa 1 42 10,
                mkDupRec 4 nmC hbb 1 1 5, mkDupRec 5 nmD hbb 2 2 99]
    nextId := 6 }

/-- C4 witness: on the sample duplicate store the reported set for
`bb` carries wasted space `5 + 99 = 104`, the sum over the whole
group, with count 2. -/
theorem c4_witness :
    ∃ h, encodeHex hbb = encodeHex h ∧
      2 = (groupFor dupStore h).length ∧
      some (104 : Int) = sumSizes (groupFor dupStore h) :=
  (c4_wasted_space_order_limit dupStore 25).1
    { file_hash_hex := encodeHex hbb
      duplicate_count := 2
      total_wasted_space := some 104 } (by decide)

/-- The length of the sorted pre-`LIMIT` report equals the number of
qualifying hash values. -/
theorem reportedKept_length (s : Store) :
    (List.insertionSort
      (fun a b => wastedGE (sumSizes a.2) (sumSizes b.2) = true)
      (((groupKeys s).map (fun h => (h, groupFor s h))).filter
        (fun g => 1 < distinctPairCount g.2))).length =
    ((groupKeys s).filter
      (fun h => 1 < distinctPairCount (groupFor s h))).length := by
  rw [(List.perm_insertionSort _ _).length_eq]
  rw [List.filter_map]
  rw [List.length_map]
  rfl

/-! ## C2 — duplicate grouping and the hard-link rule -/

/-- C2: a group is reported only if it has more than one distinct
`(device_id, inode)` pair; when the qualifying groups fit within
`limit`, every such group is reported; a hash whose records all share
one physical identity (hard links) never yields a reported set; and
two records with the same hash but distinct physical identities appear
together in exactly one reported set. -/
theorem c2_duplicate_grouping (s : Store) (limit : Nat) :
    (∀ g ∈ reportedGroups s limit,
      g.2 = groupFor s g.1 ∧ 1 < distinctPairCount (groupFor s g.1)) ∧
    (((groupKeys s).filter
        (fun h => 1 < distinctPairCount (groupFor s h))).length ≤ limit →
      ∀ h ∈ groupKeys s, 1 < distinctPairCount (groupFor s h) →
        (h, groupFor s h) ∈ reportedGroups s limit) ∧
    (∀ h d0 i0, (∀ r ∈ groupFor s h, r.device_id = d0 ∧ r.inode = i0) →
      ∀ g ∈ reportedGroups s limit, g.1 ≠ h) ∧
    (∀ r1 r2 h, r1 ∈ s.records → r2 ∈ s.records →
      r1.file_hash = some h → r2.file_hash = some h →
      (r1.device_id, r1.inode) ≠ (r2.device_id, r2.inode) →
      ((groupKeys s).filter
        (fun h2 => 1 < distinctPairCount (groupFor s h2))).length ≤ limit →
      (reportedGroups s limit).countP
        (fun g => decide (r1 ∈ g.2 ∧ r2 ∈ g.2)) = 1) := by
  refine ⟨?_, ?_, ?_, ?_⟩
  · intro g hg
    have h1 := reportedGroups_mem s limit g hg
    exact ⟨h1.1, h1.1 ▸ h1.2⟩
  · intro hlim h hk hq
    unfold reportedGroups
    have hkept : (h, groupFor s h) ∈
        (((groupKeys s).map (fun h2 => (h2, groupFor s h2))).filter
          (fun g => 1 < distinctPairCount g.2)) := by
      rw [List.mem_filter]
      exact ⟨List.mem_map.2 ⟨h, hk, rfl⟩, by simpa using hq⟩
    rw [List.take_of_length_le (by rw [reportedKept_length]; exact hlim)]
    exact (List.mem_insertionSort _).2 hkept
  · intro h d0 i0 hall g hg heq
    have h1 := reportedGroups_mem s limit g hg
    have h2 : 1 < distinctPairCount (groupFor s h) := by
      rw [← heq]
      exact h1.1 ▸ h1.2
    have h3 : distinctPairCount (groupFor s h) ≤ 1 := by
      apply length_le_one_of_all_eq (List.nodup_dedup _)
        (a := ((d0 : Option Int), (i0 : Option Int)))
      intro x hx
      rw [List.mem_dedup, List.mem_map] at hx
      obtain ⟨r, hr, hrx⟩ := hx
      have := hall r hr
      rw [← hrx, this.1, this.2]
    omega
  · intro r1 r2 h hr1 hr2 hh1 hh2 hpair hlim
    have hg1 : r1 ∈ groupFor s h := by
      rw [groupFor, List.mem_filter]
      exact ⟨hr1, by simp [hh1]⟩
    have hg2 : r2 ∈ groupFor s h := by
      rw [groupFor, List.mem_filter]
      exact ⟨hr2, by simp [hh2]⟩
    have hq : 1 < distinctPairCount (groupFor s h) := by
      apply one_lt_length_of_two_mem
        (a := ((r1.device_id, r1.inode) : Option Int × Option Int))
        (b := ((r2.device_id, r2.inode) : Option Int × Option Int))
      · exact List.mem_dedup.2 (List.mem_map.2 ⟨r1, hg1, rfl⟩)
      · exact List.mem_dedup.2 (List.mem_map.2 ⟨r2, hg2, rfl⟩)
      · exact hpair
    have hkeys : h ∈ groupKeys s :=
      List.mem_dedup.2 (List.mem_filterMap.2 ⟨r1, hr1, hh1⟩)
    unfold reportedGroups
    rw [List.take_of_length_le (by rw [reportedKept_length]; exact hlim)]
    rw [(List.perm_insertionSort _ _).countP_eq]
    rw [List.filter_map, List.countP_map]
    have hcongr : List.countP
        ((fun g => decide (r1 ∈ g.2 ∧ r2 ∈ g.2)) ∘
          (fun h2 => (h2, groupFor s h2)))
        ((groupKeys s).filter
          ((fun g => 1 < distinctPairCount g.2) ∘
            (fun h2 => (h2, groupFor s h2)))) =
        List.countP (fun h2 => h2 == h)
        ((groupKeys s).filter
          ((fun g => 1 < distinctPairCount g.2) ∘
            (fun h2 => (h2, groupFor s h2)))) := by
      apply List.countP_congr
      intro x hx
      simp only [Function.comp, decide_eq_true_eq, beq_iff_eq]
      constructor
      · intro hin
        have hx1 : r1 ∈ groupFor s x := hin.1
        rw [groupFor, List.mem_filter] at hx1
        have := hx1.2
        simp only [decide_eq_true_eq] at this
        rw [hh1] at this
        exact (Option.some.injEq _ _ ▸ this).symm
      · intro hxe
        subst hxe
        exact ⟨hg1, hg2⟩
    rw [hcongr]
    have hmemf : h ∈ (groupKeys s).filter
        ((fun g => 1 < distinctPairCount g.2) ∘
          (fun h2 => (h2, groupFor s h2))) := by
      rw [List.mem_filter]
      exact ⟨hkeys, by simpa [Function.comp] using hq⟩
    exact List.count_eq_one_of_mem
      ((List.nodup_dedup _).filter _) hmemf

/-- C2 witness: on the sample duplicate store, the two `bb` rows with
distinct physical identities appear together in exactly one reported
set. -/
theorem c2_witness :
    (reportedGroups dupStore 25).countP
      (fun g => decide (mkDupRec 4 nmC hbb 1 1 5 ∈ g.2 ∧
        mkDupRec 5 nmD hbb 2 2 99 ∈ g.2)) = 1 :=
  (c2_duplicate_grouping dupStore 25).2.2.2
    (mkDupRec 4 nmC hbb 1 1 5) (mkDupRec 5 nmD hbb 2 2 99) hbb
    (by decide) (by decide) (by decide) (by decide) (by decide) (by decide)

/-! ## C10 — shape-invariant machinery -/

/-- Every record of `a` persists in `b` with its id and `is_directory`
flag intact (no operation flips `is_directory`). -/
def dirStable (a b : Store) : Prop :=
  ∀ r ∈ a.records, ∃ q ∈ b.records, q.id = r.id ∧ q.is_directory = r.is_directory

/-- Postcondition of the path resolver on the store: the §3 shape
invariant and id well-formedness hold, the id sequence only advances,
existing records keep id and kind, and every record it created is a
directory with null `content_hash` and `size` and a freshly assigned
id. -/
def resolverPost (a b : Store) : Prop :=
  DirInv b ∧ IdWF b ∧ a.nextId ≤ b.nextId ∧ dirStable a b ∧
  ∀ q ∈ b.records, q ∉ a.records →
    q.is_directory = true ∧ q.file_hash = none ∧ q.file_size = none ∧
      a.nextId ≤ q.id

/-- Postcondition of a reconciliation step on the store: the §3 shape
invariant and id well-formedness hold, the id sequence only advances,
existing records keep id and kind, every created record is either a
resolver directory (null hash and size, fresh id) or a reconciler file
row (`is_directory = FALSE`), and every record updated in place (same
id as an old record, contents changed) is a file row. -/
def reconcilerPost (a b : Store) : Prop :=
  DirInv b ∧ IdWF b ∧ a.nextId ≤ b.nextId ∧ dirStable a b ∧
  (∀ q ∈ b.records, q ∉ a.records →
    (q.is_directory = true ∧ q.file_hash = none ∧ q.file_size = none ∧
      a.nextId ≤ q.id) ∨
    q.is_directory = false) ∧
  (∀ r ∈ a.records, ∀ q ∈ b.records, q.id = r.id → q ≠ r →
    q.is_directory = false)

theorem dirStable_refl (a : Store) : dirStable a a :=
  fun r hr => ⟨r, hr, rfl, rfl⟩

theorem dirStable_trans {a b c : Store} (hab : dirStable a b)
    (hbc : dirStable b c) : dirStable a c := by
  intro r hr
  obtain ⟨q, hq, hqid, hqdir⟩ := hab r hr
  obtain ⟨p, hp, hpid, hpdir⟩ := hbc q hq
  exact ⟨p, hp, hpid.trans hqid, hpdir.trans hqdir⟩

theorem recordId_inj {s : Store} (h : IdWF s) {q r : FileRecord}
    (hq : q ∈ s.records) (hr : r ∈ s.records) (hid : q.id = r.id) :
    q = r :=
  (List.inj_on_of_nodup_map h.1) hq hr hid

theorem resolverPost_refl {a : Store} (h1 : DirInv a) (h2 : IdWF a) :
    resolverPost a a :=
  ⟨h1, h2, le_refl _, dirStable_refl a, fun q hq hnq => absurd hq hnq⟩

theorem resolverPost_trans {a b c : Store} (hab : resolverPost a b)
    (hbc : resolverPost b c) : resolverPost a c := by
  refine ⟨hbc.1, hbc.2.1, hab.2.2.1.trans hbc.2.2.1,
    dirStable_trans hab.2.2.2.1 hbc.2.2.2.1, ?_⟩
  intro q hq hnq
  by_cases hqb : q ∈ b.records
  · exact hab.2.2.2.2 q hqb hnq
  · have h := hbc.2.2.2.2 q hq hqb
    exact ⟨h.1, h.2.1, h.2.2.1, hab.2.2.1.trans h.2.2.2⟩

/-- A resolver step is in particular a valid reconciliation step. -/
theorem resolverPost_weaken {a b : Store} (haId : IdWF a)
    (h : resolverPost a b) : reconcilerPost a b := by
  refine ⟨h.1, h.2.1, h.2.2.1, h.2.2.2.1, ?_, ?_⟩
  · intro q hq hnq
    exact Or.inl (h.2.2.2.2 q hq hnq)
  · intro r hr q hq hid hne
    by_cases hqa : q ∈ a.records
    · exact absurd (recordId_inj haId hqa hr hid) hne
    · have hfresh := (h.2.2.2.2 q hq hqa).2.2.2
      have hlt := haId.2 r hr
      omega

theorem reconcilerPost_refl {a : Store} (h1 : DirInv a) (h2 : IdWF a) :
    reconcilerPost a a :=
  resolverPost_weaken h2 (resolverPost_refl h1 h2)

theorem reconcilerPost_trans {a b c : Store} (haId : IdWF a)
    (hab : reconcilerPost a b) (hbc : reconcilerPost b c) :
    reconcilerPost a c := by
  refine ⟨hbc.1, hbc.2.1, hab.2.2.1.trans hbc.2.2.1,
    dirStable_trans hab.2.2.2.1 hbc.2.2.2.1, ?_, ?_⟩
  · intro q hq hnq
    by_cases hqb : q ∈ b.records
    · exact hab.2.2.2.2.1 q hqb hnq
    · rcases hbc.2.2.2.2.1 q hq hqb with h | h
      · exact Or.inl ⟨h.1, h.2.1, h.2.2.1, hab.2.2.1.trans h.2.2.2⟩
      · exact Or.inr h
  · intro r hr q hq hid hne
    obtain ⟨m, hm, hmid, hmdir⟩ := hab.2.2.2.1 r hr
    by_cases hqm : q = m
    · by_cases hmr : m = r
      · exact absurd (hqm.trans hmr) hne
      · rw [hqm]
        exact hab.2.2.2.2.2 r hr m hm hmid hmr
    · exact hbc.2.2.2.2.2 m hm q hq (hid.trans hmid.symm) hqm

theorem IdWF_append {s : Store} (h : IdWF s) {q : FileRecord}
    (hq : q.id = s.nextId) :
    IdWF { records := s.records ++ [q], nextId := s.nextId + 1 } := by
  constructor
  · rw [List.map_append, List.nodup_append]
    refine ⟨h.1, by simp, ?_⟩
    intro x hx
    rw [List.mem_map] at hx
    obtain ⟨r, hr, hrx⟩ := hx
    have := h.2 r hr
    simp only [List.map_cons, List.map_nil, List.mem_singleton]
    omega
  · intro r hr
    rw [List.mem_append] at hr
    rcases hr with hr | hr
    · have := h.2 r hr
      show r.id < s.nextId + 1
      omega
    · rw [List.mem_singleton] at hr
      subst hr
      show r.id < s.nextId + 1
      omega

theorem resolverPost_insertDir {a : Store} (h1 : DirInv a) (h2 : IdWF a)
    (pid : Nat) (nm : String) : resolverPost a (insertDir a pid nm) := by
  refine ⟨?_, ?_, ?_, ?_, ?_⟩
  · intro r hr hdir
    rw [insertDir, List.mem_append] at hr
    rcases hr with hr | hr
    · exact h1 r hr hdir
    · rw [List.mem_singleton] at hr
      subst hr
      exact ⟨rfl, rfl⟩
  · exact IdWF_append h2 rfl
  · show a.nextId ≤ a.nextId + 1
    omega
  · intro r hr
    exact ⟨r, by rw [insertDir, List.mem_append]; exact Or.inl hr, rfl, rfl⟩
  · intro q hq hnq
    rw [insertDir, List.mem_append] at hq
    rcases hq with hq | hq
    · exact absurd hq hnq
    · rw [List.mem_singleton] at hq
      subst hq
      exact ⟨rfl, rfl, rfl, le_refl _⟩

theorem reconcilerPost_insertFile {a : Store} (h1 : DirInv a)
    (h2 : IdWF a) (pid : Nat) (e : FileInfo) (fh : Option String) :
    reconcilerPost a (insertFile a pid e fh) := by
  refine ⟨?_, ?_, ?_, ?_, ?_, ?_⟩
  · intro r hr hdir
    rw [insertFile, List.mem_append] at hr
    rcases hr with hr | hr
    · exact h1 r hr hdir
    · rw [List.mem_singleton] at hr
      subst hr
      exact absurd hdir (by simp)
  · exact IdWF_append h2 rfl
  · show a.nextId ≤ a.nextId + 1
    omega
  · intro r hr
    exact ⟨r, by rw [insertFile, List.mem_append]; exact Or.inl hr, rfl, rfl⟩
  · intro q hq hnq
    rw [insertFile, List.mem_append] at hq
    rcases hq with hq | hq
    · exact absurd hq hnq
    · rw [List.mem_singleton] at hq
      subst hq
      exact Or.inr rfl
  · intro r hr q hq hid hne
    rw [insertFile, List.mem_append] at hq
    rcases hq with hq | hq
    · exact absurd (recordId_inj h2 hq hr hid) hne
    · rw [List.mem_singleton] at hq
      subst hq
      have := h2.2 r hr
      simp only at hid
      omega

/-- The per-row function of the reconciler's UPDATE. -/
def updRow (targetId : Nat) (e : FileInfo) (fh : Option String)
    (r : FileRecord) : FileRecord :=
  if r.id = targetId then
    { r with
      file_hash := fh
      file_size := some e.file_size
      modified_at := some e.mtime
      mimetype := e.mimetype
      inode := some e.inode
      device_id := some e.device_id }
  else r

theorem updateFile_eq (a : Store) (targetId : Nat) (e : FileInfo)
    (fh : Option String) :
    updateFile a targetId e fh =
      { records := a.records.map (updRow targetId e fh)
        nextId := a.nextId } := rfl

theorem updRow_id (targetId : Nat) (e : FileInfo) (fh : Option String)
    (r : FileRecord) : (updRow targetId e fh r).id = r.id := by
  unfold updRow
  split <;> rfl

theorem updRow_dir (targetId : Nat) (e : FileInfo) (fh : Option String)
    (r : FileRecord) :
    (updRow targetId e fh r).is_directory = r.is_directory := by
  unfold updRow
  split <;> rfl

theorem updRow_of_ne (targetId : Nat) (e : FileInfo) (fh : Option String)
    {r : FileRecord} (h : ¬ r.id = targetId) : updRow targetId e fh r = r := by
  unfold updRow
  exact if_neg h

theorem reconcilerPost_updateFile {a : Store} (h1 : DirInv a) (h2 : IdWF a)
    (targetId : Nat) (e : FileInfo) (fh : Option String)
    (htgt : ∀ r ∈ a.records, r.id = targetId → r.is_directory = false) :
    reconcilerPost a (updateFile a targetId e fh) := by
  rw [updateFile_eq]
  refine ⟨?_, ?_, le_refl _, ?_, ?_, ?_⟩
  · intro q hq hdir
    rw [List.mem_map] at hq
    obtain ⟨r, hr, hrq⟩ := hq
    have hdr : r.is_directory = true := by
      rw [← updRow_dir targetId e fh r, hrq]
      exact hdir
    have hne : ¬ r.id = targetId := by
      intro hc
      rw [htgt r hr hc] at hdr
      exact Bool.noConfusion hdr
    rw [← hrq, updRow_of_ne targetId e fh hne]
    exact h1 r hr hdr
  · constructor
    · have hmm : List.map (fun r => r.id)
          (List.map (updRow targetId e fh) a.records) =
          List.map (fun r => r.id) a.records := by
        rw [List.map_map]
        apply List.map_congr_left
        intro r _
        exact updRow_id targetId e fh r
      rw [hmm]
      exact h2.1
    · intro r hr
      rw [List.mem_map] at hr
      obtain ⟨q, hq, hqr⟩ := hr
      have := h2.2 q hq
      rw [← hqr, updRow_id]
      exact this
  · intro r hr
    refine ⟨updRow targetId e fh r, List.mem_map_of_mem _ hr,
      updRow_id _ _ _ _, updRow_dir _ _ _ _⟩
  · intro q hq hnq
    rw [List.mem_map] at hq
    obtain ⟨r, hr, hrq⟩ := hq
    by_cases hne : r.id = targetId
    · right
      rw [← hrq, updRow_dir]
      exact htgt r hr hne
    · rw [updRow_of_ne targetId e fh hne] at hrq
      exact absurd (hrq ▸ hr) hnq
  · intro r hr q hq hid hne
    rw [List.mem_map] at hq
    obtain ⟨m, hm, hmq⟩ := hq
    have hmid : m.id = r.id := by
      rw [← hid, ← hmq, updRow_id]
    have hmr : m = r := recordId_inj h2 hm hr hmid
    subst hmr
    by_cases htg : m.id = targetId
    · rw [← hmq, updRow_dir]
      exact htgt m hm htg
    · rw [updRow_of_ne targetId e fh htg] at hmq
      exact absurd hmq.symm hne

/-- The session carried by a resolver outcome (the Python session is
mutated in place whether or not the call raises). -/
def sessionOfResolve
    (x : Except (PyErr × Session × Cache) (Nat × Session × Cache)) :
    Session :=
  match x with
  | .ok (_, db, _) => db
  | .error (_, db, _) => db

/-- The session carried by a reconciliation-step outcome. -/
def sessionOfStep
    (x : Except (PyErr × Session × Cache) (Session × Cache)) : Session :=
  match x with
  | .ok (db, _) => db
  | .error (_, db, _) => db

/-- The session carried by a loop outcome. -/
def sessionOfLoop (x : Except (PyErr × Session) Session) : Session :=
  match x with
  | .ok db => db
  | .error (_, db) => db

theorem ensureWalk_post (parts : List String) :
    ∀ (db : Session) (cache : Cache) (pfx : String) (pid : Nat),
    DirInv db.current → IdWF db.current →
    resolverPost db.current
      (sessionOfResolve (ensureWalk db cache pfx pid parts)).current ∧
    (sessionOfResolve (ensureWalk db cache pfx pid parts)).committed =
      db.committed := by
  induction parts with
  | nil =>
    intro db cache pfx pid h1 h2
    exact ⟨resolverPost_refl h1 h2, rfl⟩
  | cons part rest ih =>
    intro db cache pfx pid h1 h2
    simp only [ensureWalk]
    cases hcl : cacheLookup cache (pathJoin pfx part) with
    | some cid =>
      simp only [hcl]
      exact ih db cache _ cid h1 h2
    | none =>
      simp only [hcl]
      cases hs : scalarOneOrNoneDir db.current pid part with
      | error err =>
        simp only [hs]
        exact ⟨resolverPost_refl h1 h2, rfl⟩
      | ok found =>
        simp only [hs]
        cases ht : truthyId found with
        | none =>
          simp only [ht]
          have hins := resolverPost_insertDir h1 h2 pid part
          have hrec := ih
            { db with
              current := insertDir db.current pid part
              insCount := db.insCount + 1 }
            ((pathJoin pfx part, db.current.nextId) :: cache)
            (pathJoin pfx part) db.current.nextId hins.1 hins.2.1
          exact ⟨resolverPost_trans hins hrec.1, hrec.2⟩
        | some cid =>
          simp only [ht]
          exact ih db _ _ cid h1 h2

theorem ensure_post (db : Session) (p : String) (cache : Cache)
    (h1 : DirInv db.current) (h2 : IdWF db.current) :
    resolverPost db.current
      (sessionOfResolve (ensure_path_exists db p cache)).current ∧
    (sessionOfResolve (ensure_path_exists db p cache)).committed =
      db.committed := by
  simp only [ensure_path_exists]
  cases hcl : cacheLookup cache p with
  | some cid => exact ⟨resolverPost_refl h1 h2, rfl⟩
  | none =>
    cases habs : isAbsolutePath p with
    | false =>
      simp only [Bool.false_eq_true, if_false]
      exact ⟨resolverPost_refl h1 h2, rfl⟩
    | true =>
      simp only [if_true]
      cases hroot : scalarOneRoot db.current with
      | error err => exact ⟨resolverPost_refl h1 h2, rfl⟩
      | ok rid => exact ensureWalk_post _ db _ slashStr rid h1 h2

theorem fileMatch_spec {s : Store} {pid : Nat} {nm : String}
    {r : FileRecord} (h : fileMatch s pid nm = some r) :
    r ∈ s.records ∧ r.parent_id = some pid ∧ r.file_name = nm := by
  unfold fileMatch at h
  cases hl : s.records.filter
      (fun q => decide (q.parent_id = some pid ∧ q.file_name = nm)) with
  | nil =>
    rw [hl] at h
    exact absurd h (by simp)
  | cons a t =>
    rw [hl] at h
    simp only [List.head?_cons, Option.some.injEq] at h
    have hmem : r ∈ s.records.filter
        (fun q => decide (q.parent_id = some pid ∧ q.file_name = nm)) := by
      rw [hl]
      exact h ▸ List.mem_cons_self a t
    rw [List.mem_filter] at hmem
    have hp := hmem.2
    simp only [decide_eq_true_eq] at hp
    exact ⟨hmem.1, hp.1, hp.2⟩

theorem processEntry_post (fs : FS) (db : Session) (cache : Cache)
    (e : FileInfo) (h1 : DirInv db.current) (h2 : IdWF db.current) :
    reconcilerPost db.current
      (sessionOfStep (processEntry fs db cache e)).current ∧
    (sessionOfStep (processEntry fs db cache e)).committed =
      db.committed := by
  simp only [processEntry]
  cases hens : ensure_path_exists db e.parent_path cache with
  | error tup =>
    obtain ⟨err, db1, c1⟩ := tup
    simp only [hens]
    have hres := ensure_post db e.parent_path cache h1 h2
    rw [hens] at hres
    exact ⟨resolverPost_weaken h2 hres.1, hres.2⟩
  | ok tup =>
    obtain ⟨pid, db1, c1⟩ := tup
    simp only [hens]
    have hres := ensure_post db e.parent_path cache h1 h2
    rw [hens] at hres
    have hres1 : resolverPost db.current db1.current := hres.1
    have hcomm : db1.committed = db.committed := hres.2
    have h1b : DirInv db1.current := hres1.1
    have h2b : IdWF db1.current := hres1.2.1
    cases hhash : calculate_sha384 fs e.full_path with
    | error err =>
      simp only [hhash]
      exact ⟨resolverPost_weaken h2 hres1, hcomm⟩
    | ok fh =>
      simp only [hhash]
      cases hm : fileMatch db1.current pid e.file_name with
      | none =>
        simp only [hm]
        refine ⟨reconcilerPost_trans h2 (resolverPost_weaken h2 hres1)
          (reconcilerPost_insertFile h1b h2b pid e fh), hcomm⟩
      | some existing =>
        simp only [hm]
        cases hmt : existing.modified_at with
        | none =>
          simp only [hmt]
          exact ⟨resolverPost_weaken h2 hres1, hcomm⟩
        | some t =>
          simp only [hmt]
          cases hmh : existing.file_hash with
          | none =>
            simp only [hmh]
            exact ⟨resolverPost_weaken h2 hres1, hcomm⟩
          | some hsh =>
            simp only [hmh]
            have hfile : existing.is_directory = false := by
              by_contra hc
              rw [Bool.not_eq_false] at hc
              have := (h1b existing (fileMatch_spec hm).1 hc).1
              rw [hmh] at this
              exact Option.noConfusion this
            have htgt : ∀ r ∈ db1.current.records, r.id = existing.id →
                r.is_directory = false := by
              intro r hr hid
              rw [recordId_inj h2b hr (fileMatch_spec hm).1 hid]
              exact hfile
            by_cases hcond : some hsh ≠ fh ∨ truncSec t ≠ truncSec e.mtime
            · rw [if_pos hcond]
              refine ⟨reconcilerPost_trans h2 (resolverPost_weaken h2 hres1)
                (reconcilerPost_updateFile h1b h2b existing.id e fh htgt),
                hcomm⟩
            · rw [if_neg hcond]
              exact ⟨resolverPost_weaken h2 hres1, hcomm⟩

theorem processLoop_post (fs : FS) (mx : Int) (s0 : Store) (hs0 : IdWF s0) :
    ∀ (stream : List FileInfo) (db : Session) (cache : Cache) (i : Nat),
    reconcilerPost s0 db.current → reconcilerPost s0 db.committed →
    reconcilerPost s0
      (sessionOfLoop (processLoop fs mx db cache i stream)).current ∧
    reconcilerPost s0
      (sessionOfLoop (processLoop fs mx db cache i stream)).committed := by
  intro stream
  induction stream with
  | nil =>
    intro db cache i hc hm
    exact ⟨hc, hm⟩
  | cons e rest ih =>
    intro db cache i hc hm
    simp only [processLoop]
    by_cases hcap : mx > 0 ∧ mx ≤ (i : Int)
    · rw [if_pos hcap]
      exact ⟨hc, hm⟩
    · rw [if_neg hcap]
      cases hpe : processEntry fs db cache e with
      | error tup =>
        obtain ⟨err, db1, c1⟩ := tup
        simp only [hpe]
        have hpost := processEntry_post fs db cache e hc.1 hc.2.1
        rw [hpe] at hpost
        refine ⟨reconcilerPost_trans hs0 hc hpost.1, ?_⟩
        have hcm : db1.committed = db.committed := hpost.2
        show reconcilerPost s0 db1.committed
        rw [hcm]
        exact hm
      | ok tup =>
        obtain ⟨db1, c1⟩ := tup
        simp only [hpe]
        have hpost := processEntry_post fs db cache e hc.1 hc.2.1
        rw [hpe] at hpost
        have hc1 : reconcilerPost s0 db1.current :=
          reconcilerPost_trans hs0 hc hpost.1
        have hm1 : reconcilerPost s0 db1.committed := by
          rw [show db1.committed = db.committed from hpost.2]
          exact hm
        by_cases hb : i % 250 = 0
        · rw [if_pos hb]
          exact ih (commitS db1) c1 (i + 1) hc1 hc1
        · rw [if_neg hb]
          exact ih db1 c1 (i + 1) hc1 hm1

/-! ## C10 — the §3 invariant is preserved by every operation -/

/-- C10: the path resolver only ever creates directory records with
null `content_hash` and `size` and never touches existing records
(their ids and `is_directory` flags persist); the reconciler only
creates or updates file rows (`is_directory = FALSE`), never sets a
hash or size on a directory record, and never flips `is_directory`;
hence the §3 invariant (`DirInv`) is preserved by the resolver, by
each reconciliation step, and by a whole reconciliation run, on both
the current and the committed store (assuming well-formed ids). -/
theorem c10_invariant_preserved :
    (∀ (db : Session) (p : String) (cache : Cache),
      DirInv db.current → IdWF db.current →
      resolverPost db.current
        (sessionOfResolve (ensure_path_exists db p cache)).current) ∧
    (∀ (fs : FS) (db : Session) (cache : Cache) (e : FileInfo),
      DirInv db.current → IdWF db.current →
      reconcilerPost db.current
        (sessionOfStep (processEntry fs db cache e)).current) ∧
    (∀ (db : Session) (stream : List FileInfo) (fs : FS) (mx : Int),
      DirInv db.current → IdWF db.current → db.committed = db.current →
      reconcilerPost db.current
        (process_directory_body db stream fs mx).1.current ∧
      reconcilerPost db.current
        (process_directory_body db stream fs mx).1.committed) := by
  refine ⟨?_, ?_, ?_⟩
  · intro db p cache h1 h2
    exact (ensure_post db p cache h1 h2).1
  · intro fs db cache e h1 h2
    exact (processEntry_post fs db cache e h1 h2).1
  · intro db stream fs mx h1 h2 hclean
    have hloop := processLoop_post fs mx db.current h2 stream db [] 0
      (reconcilerPost_refl h1 h2)
      (by rw [hclean]; exact reconcilerPost_refl h1 h2)
    unfold process_directory_body
    cases hl : processLoop fs mx db [] 0 stream with
    | ok dbf =>
      rw [hl] at hloop
      exact ⟨hloop.1, hloop.1⟩
    | error tup =>
      obtain ⟨err, dbf⟩ := tup
      rw [hl] at hloop
      exact ⟨hloop.2, hloop.2⟩

/-- C10 witness: a reconciliation step over the seeded sample store
satisfies the reconciler postcondition. -/
theorem sampleStore_dirInv : DirInv sampleStore := by
  intro r hr hd
  have hr2 : r ∈ [sampleRoot] := hr
  rw [List.mem_singleton] at hr2
  subst hr2
  exact ⟨rfl, rfl⟩

theorem sampleStore_idWF : IdWF sampleStore := by
  constructor
  · decide
  · intro r hr
    have hr2 : r ∈ [sampleRoot] := hr
    rw [List.mem_singleton] at hr2
    subst hr2
    decide

theorem c10_witness :
    reconcilerPost sampleStore
      (sessionOfStep (processEntry fsX sampleSession [] entryX)).current :=
  c10_invariant_preserved.2.1 fsX sampleSession [] entryX
    sampleStore_dirInv sampleStore_idWF

/-! ## C3 — path-string lemmas -/

/-- A single path component: non-empty, not `.`, and free of the
separator. -/
def validComp (x : String) : Prop :=
  x ≠ emptyStr ∧ x ≠ dotStr ∧ slashChar ∉ x.data

theorem splitChar_sepFree {sep : Char} {cs : List Char}
    (h : sep ∉ cs) : splitChar sep cs = [cs] := by
  induction cs with
  | nil => rfl
  | cons c t ih =>
    rw [List.mem_cons] at h
    push_neg at h
    obtain ⟨h1, h2⟩ := h
    have hcs : ¬ c = sep := fun hcc => h1 hcc.symm
    simp only [splitChar, if_neg hcs, ih h2]

theorem splitChar_ne_nil (sep : Char) (cs : List Char) :
    splitChar sep cs ≠ [] := by
  induction cs with
  | nil => simp [splitChar]
  | cons c t ih =>
    by_cases hc : c = sep
    · simp [splitChar, if_pos hc]
    · simp only [splitChar, if_neg hc]
      cases hsc : splitChar sep t with
      | nil => simp
      | cons g gs => simp

theorem splitChar_append (sep : Char) (as bs : List Char) :
    splitChar sep (as ++ sep :: bs) =
      splitChar sep as ++ splitChar sep bs := by
  induction as with
  | nil => simp [splitChar]
  | cons a t ih =>
    by_cases ha : a = sep
    · subst ha
      simp [splitChar, ih]
    · cases hsc : splitChar sep t with
      | nil => exact absurd hsc (splitChar_ne_nil sep t)
      | cons g gs =>
        have ih2 : splitChar sep (t ++ sep :: bs) =
            g :: (gs ++ splitChar sep bs) := by
          rw [ih, hsc]
          rfl
        simp only [List.cons_append, List.append_eq, splitChar,
          if_neg ha]
        rw [ih2, hsc]
        simp

theorem splitChar_no_sep {sep : Char} {cs : List Char} :
    ∀ g ∈ splitChar sep cs, sep ∉ g := by
  induction cs with
  | nil =>
    intro g hg
    simp only [splitChar, List.mem_singleton] at hg
    subst hg
    exact List.not_mem_nil sep
  | cons c t ih =>
    intro g hg
    by_cases hc : c = sep
    · simp only [splitChar, if_pos hc, List.mem_cons] at hg
      rcases hg with hg | hg
      · subst hg
        exact List.not_mem_nil sep
      · exact ih g hg
    · simp only [splitChar, if_neg hc] at hg
      cases hsc : splitChar sep t with
      | nil =>
        rw [hsc] at hg
        rw [List.mem_singleton] at hg
        subst hg
        intro hmem
        rw [List.mem_singleton] at hmem
        exact hc hmem.symm
      | cons g2 gs2 =>
        rw [hsc] at hg
        rw [List.mem_cons] at hg
        rcases hg with hg | hg
        · subst hg
          intro hmem
          rw [List.mem_cons] at hmem
          rcases hmem with hmem | hmem
          · exact hc hmem.symm
          · exact ih g2 (hsc ▸ List.mem_cons_self g2 gs2) hmem
        · exact ih g (hsc ▸ List.mem_cons_of_mem g2 hg)

theorem string_mk_data (s : String) : String.mk s.data = s := rfl

theorem pathComponents_valid (p : String) :
    ∀ x ∈ pathComponents p, validComp x := by
  intro x hx
  unfold pathComponents at hx
  rw [List.mem_filter] at hx
  obtain ⟨hmem, hpred⟩ := hx
  rw [List.mem_map] at hmem
  obtain ⟨g, hg, hgx⟩ := hmem
  simp only [decide_eq_true_eq] at hpred
  refine ⟨hpred.1, hpred.2, ?_⟩
  intro hc
  have hns := splitChar_no_sep g hg
  rw [← hgx] at hc
  exact hns hc

theorem isAbsolute_data {p : String} (h : isAbsolutePath p = true) :
    ∃ rest, p.data = slashChar :: rest := by
  unfold isAbsolutePath at h
  cases hd : p.data with
  | nil =>
    rw [hd] at h
    exact absurd h (by simp)
  | cons c rest =>
    rw [hd] at h
    simp only [List.head?_cons, Option.some.injEq, decide_eq_true_eq] at h
    subst h
    exact ⟨rest, rfl⟩

theorem pathJoin_abs {p x : String} (h : isAbsolutePath p = true) :
    isAbsolutePath (pathJoin p x) = true := by
  obtain ⟨rest, hrest⟩ := isAbsolute_data h
  have hpe : p ≠ emptyStr := by
    intro hc
    rw [hc] at hrest
    exact List.noConfusion hrest
  unfold pathJoin
  rw [if_neg hpe]
  by_cases hps : p = slashStr
  · rw [if_pos hps, hps]
    rfl
  · rw [if_neg hps]
    unfold isAbsolutePath
    rw [String.data_append, String.data_append, hrest]
    simp

theorem pathComponents_pathJoin {p x : String}
    (h : isAbsolutePath p = true) (hx : validComp x) :
    pathComponents (pathJoin p x) = pathComponents p ++ [x] := by
  obtain ⟨rest, hrest⟩ := isAbsolute_data h
  have hpe : p ≠ emptyStr := by
    intro hc
    rw [hc] at hrest
    exact List.noConfusion hrest
  have hxsplit : splitChar slashChar x.data = [x.data] :=
    splitChar_sepFree hx.2.2
  have hxkeep : (List.filter
      (fun c => decide (c ≠ emptyStr ∧ c ≠ dotStr)) [x]) = [x] := by
    simp [hx.1, hx.2.1]
  unfold pathJoin
  rw [if_neg hpe]
  by_cases hps : p = slashStr
  · rw [if_pos hps, hps]
    show pathComponents (slashStr ++ x) = pathComponents slashStr ++ [x]
    unfold pathComponents
    rw [String.data_append]
    rw [show slashStr.data = [slashChar] from rfl, List.singleton_append]
    rw [show splitChar slashChar (slashChar :: x.data) =
      [] :: splitChar slashChar x.data from by simp [splitChar]]
    rw [hxsplit]
    rw [show List.map String.mk [[], x.data] = [String.mk [], x] from rfl]
    rw [List.filter_cons]
    rw [show (decide (String.mk [] ≠ emptyStr ∧ String.mk [] ≠ dotStr)) =
      false from rfl]
    simp only [Bool.false_eq_true, if_false]
    rw [hxkeep]
    rfl
  · rw [if_neg hps]
    unfold pathComponents
    have hdata : (p ++ slashStr ++ x).data = p.data ++ slashChar :: x.data := by
      rw [String.data_append, String.data_append]
      rw [show slashStr.data = [slashChar] from rfl, List.append_assoc]
      rfl
    rw [hdata, splitChar_append, hxsplit]
    simp only [List.map_append, List.filter_append]
    rw [show List.map String.mk [x.data] = [x] from rfl]
    rw [hxkeep]

theorem pathParts_pathJoin {p x : String}
    (h : isAbsolutePath p = true) (hx : validComp x) :
    pathParts (pathJoin p x) = pathParts p ++ [x] := by
  unfold pathParts
  rw [pathJoin_abs h, h]
  simp only [if_true]
  rw [pathComponents_pathJoin h hx, List.cons_append]

theorem pathParts_slash : pathParts slashStr = [slashStr] := by
  unfold pathParts isAbsolutePath
  simp only [show slashStr.data = [slashChar] from rfl]
  rfl

/-! ## C3 — read-only chain resolution -/

/-- The read path of one resolver step: the unique child-directory row
under `pid` named `part`, unless zero or several rows match, or its id
is `0` (Python truthiness would not accept it). -/
def chainStep (s : Store) (pid : Nat) (part : String) : Option Nat :=
  match dirRows s pid part with
  | [r] => if r.id = 0 then none else some r.id
  | _ => none

def resolveFrom (s : Store) (pid : Nat) : List String → Option Nat
  | [] => some pid
  | part :: rest =>
    match chainStep s pid part with
    | some c => resolveFrom s c rest
    | none => none

/-- The unique root row's id, when exactly one row has a null
parent. -/
def rootOne (s : Store) : Option Nat :=
  match rootRows s with
  | [r] => some r.id
  | _ => none

/-- Read-only resolution of a parts list (as produced by
`pathParts`): anchored at the unique root, then one `chainStep` per
component. -/
def resolveParts (s : Store) (ps : List String) : Option Nat :=
  match ps with
  | [] => none
  | anchor :: rest =>
    if anchor = slashStr then
      match rootOne s with
      | some rid => resolveFrom s rid rest
      | none => none
    else none

theorem resolveFrom_append (s : Store) (pid : Nat) (l1 l2 : List String) :
    resolveFrom s pid (l1 ++ l2) =
      match resolveFrom s pid l1 with
      | some q => resolveFrom s q l2
      | none => none := by
  induction l1 generalizing pid with
  | nil => rfl
  | cons part rest ih =>
    simp only [List.cons_append, resolveFrom]
    cases hcs : chainStep s pid part with
    | some c => exact ih c
    | none => rfl

theorem chainStep_eq_some {s : Store} {pid : Nat} {part : String}
    {c : Nat} (h : chainStep s pid part = some c) :
    ∃ r, dirRows s pid part = [r] ∧ r.id = c ∧ ¬ c = 0 := by
  unfold chainStep at h
  cases hd : dirRows s pid part with
  | nil =>
    simp only [hd] at h
    exact Option.noConfusion h
  | cons r t =>
    cases t with
    | nil =>
      simp only [hd] at h
      by_cases h0 : r.id = 0
      · rw [if_pos h0] at h
        exact Option.noConfusion h
      · rw [if_neg h0] at h
        refine ⟨r, rfl, Option.some.inj h, ?_⟩
        intro hc
        rw [← Option.some.inj h] at hc
        exact h0 hc
    | cons r2 t2 =>
      simp only [hd] at h
      exact Option.noConfusion h

theorem rootOne_eq_some {s : Store} {rid : Nat}
    (h : rootOne s = some rid) :
    ∃ r, rootRows s = [r] ∧ r.id = rid := by
  unfold rootOne at h
  cases hd : rootRows s with
  | nil =>
    simp only [hd] at h
    exact Option.noConfusion h
  | cons r t =>
    cases t with
    | nil =>
      simp only [hd] at h
      exact ⟨r, rfl, Option.some.inj h⟩
    | cons r2 t2 =>
      simp only [hd] at h
      exact Option.noConfusion h

theorem dirRows_mem {s : Store} {pid : Nat} {part : String}
    {r : FileRecord} (h : r ∈ dirRows s pid part) :
    r ∈ s.records ∧ r.parent_id = some pid ∧ r.file_name = part ∧
      r.is_directory = true := by
  unfold dirRows at h
  rw [List.mem_filter] at h
  have hp := h.2
  simp only [decide_eq_true_eq] at hp
  exact ⟨h.1, hp.1, hp.2.1, hp.2.2⟩

theorem rootRows_mem {s : Store} {r : FileRecord}
    (h : r ∈ rootRows s) : r ∈ s.records ∧ r.parent_id = none := by
  unfold rootRows at h
  rw [List.mem_filter] at h
  have hp := h.2
  simp only [decide_eq_true_eq] at hp
  exact ⟨h.1, hp⟩

/-! ## C3 — stability of the read paths under the write operations -/

/-- Roots and resolvable chains survive the transition from `a` to
`b`, and any found `(parent_id, name)` first-match survives
unchanged. -/
def chainMono (a b : Store) : Prop :=
  (∀ rid, rootOne a = some rid → rootOne b = some rid) ∧
  (∀ pid part c, chainStep a pid part = some c → chainStep b pid part = some c)

def fmMono (a b : Store) : Prop :=
  ∀ pid nm r, fileMatch a pid nm = some r → fileMatch b pid nm = some r

theorem resolveFrom_mono {a b : Store}
    (hstep : ∀ pid part c, chainStep a pid part = some c →
      chainStep b pid part = some c) :
    ∀ (l : List String) (pid q : Nat), resolveFrom a pid l = some q →
      resolveFrom b pid l = some q := by
  intro l
  induction l with
  | nil =>
    intro pid q h
    exact h
  | cons part rest ih =>
    intro pid q h
    simp only [resolveFrom] at h ⊢
    cases hcs : chainStep a pid part with
    | none =>
      rw [hcs] at h
      exact Option.noConfusion h
    | some c =>
      rw [hcs] at h
      rw [hstep pid part c hcs]
      exact ih c q h

theorem resolveParts_mono {a b : Store} (h : chainMono a b) :
    ∀ (ps : List String) (i : Nat), resolveParts a ps = some i →
      resolveParts b ps = some i := by
  intro ps i hr
  cases ps with
  | nil => exact Option.noConfusion hr
  | cons anchor rest =>
    simp only [resolveParts] at hr ⊢
    by_cases ha : anchor = slashStr
    · rw [if_pos ha] at hr ⊢
      cases hro : rootOne a with
      | none =>
        rw [hro] at hr
        exact Option.noConfusion hr
      | some rid =>
        rw [hro] at hr
        rw [h.1 rid hro]
        exact resolveFrom_mono h.2 rest rid i hr
    · rw [if_neg ha] at hr
      exact Option.noConfusion hr

theorem head?_append_some {α : Type} {l l2 : List α} {r : α}
    (h : l.head? = some r) : (l ++ l2).head? = some r := by
  cases l with
  | nil => exact Option.noConfusion h
  | cons a t => exact h

/-- A record appended at the end never disturbs root rows when it has
a parent. -/
theorem rootRows_append {a : Store} {q : FileRecord} {n : Nat}
    (hq : q.parent_id ≠ none) :
    rootRows { records := a.records ++ [q], nextId := n } = rootRows a := by
  unfold rootRows
  rw [List.filter_append]
  have : List.filter (fun r => decide (r.parent_id = none)) [q] = [] := by
    simp [hq]
  rw [this, List.append_nil]

theorem dirRows_append_nondir {a : Store} {q : FileRecord} {n : Nat}
    (hq : q.is_directory = false) (pid : Nat) (nm : String) :
    dirRows { records := a.records ++ [q], nextId := n } pid nm =
      dirRows a pid nm := by
  unfold dirRows
  rw [List.filter_append]
  have : List.filter (fun r => decide (r.parent_id = some pid ∧
      r.file_name = nm ∧ r.is_directory = true)) [q] = [] := by
    simp [hq]
  rw [this, List.append_nil]

theorem dirRows_append_dir {a : Store} {q : FileRecord} {n : Nat}
    (pid : Nat) (nm : String) :
    dirRows { records := a.records ++ [q], nextId := n } pid nm =
      dirRows a pid nm ++
        List.filter (fun r => decide (r.parent_id = some pid ∧
          r.file_name = nm ∧ r.is_directory = true)) [q] := by
  unfold dirRows
  rw [List.filter_append]

theorem chainMono_insertFile (a : Store) (pid0 : Nat) (e : FileInfo)
    (fh : Option String) : chainMono a (insertFile a pid0 e fh) := by
  constructor
  · intro rid h
    unfold rootOne at h ⊢
    rw [show insertFile a pid0 e fh =
      { records := a.records ++ [_], nextId := a.nextId + 1 } from rfl]
    rw [rootRows_append (by simp)]
    exact h
  · intro pid part c h
    unfold chainStep at h ⊢
    rw [show insertFile a pid0 e fh =
      { records := a.records ++ [_], nextId := a.nextId + 1 } from rfl]
    rw [dirRows_append_nondir rfl pid part]
    exact h

theorem fmMono_append {a : Store} {q : FileRecord} {n : Nat} :
    fmMono a { records := a.records ++ [q], nextId := n } := by
  intro pid nm r h
  unfold fileMatch at h ⊢
  rw [List.filter_append]
  exact head?_append_some h

theorem fmMono_insertFile (a : Store) (pid0 : Nat) (e : FileInfo)
    (fh : Option String) : fmMono a (insertFile a pid0 e fh) :=
  fmMono_append

theorem fmMono_insertDir (a : Store) (pid0 : Nat) (nm0 : String) :
    fmMono a (insertDir a pid0 nm0) :=
  fmMono_append

theorem chainMono_insertDir (a : Store) (pid0 : Nat) (nm0 : String)
    (hfresh : dirRows a pid0 nm0 = []) :
    chainMono a (insertDir a pid0 nm0) := by
  constructor
  · intro rid h
    unfold rootOne at h ⊢
    rw [show insertDir a pid0 nm0 =
      { records := a.records ++ [_], nextId := a.nextId + 1 } from rfl]
    rw [rootRows_append (by simp)]
    exact h
  · intro pid part c h
    obtain ⟨r, hr, hrc, hc0⟩ := chainStep_eq_some h
    unfold chainStep
    rw [show insertDir a pid0 nm0 =
      { records := a.records ++ [_], nextId := a.nextId + 1 } from rfl]
    rw [dirRows_append_dir pid part]
    by_cases hpp : pid = pid0 ∧ part = nm0
    · rw [hpp.1, hpp.2, hfresh] at hr
      exact List.noConfusion hr
    · have hfilt : List.filter (fun r2 => decide (r2.parent_id = some pid ∧
          r2.file_name = part ∧ r2.is_directory = true))
          [({ id := a.nextId
              parent_id := some pid0
              file_name := nm0
              is_directory := true
              file_hash := none
              file_size := none
              device_id := none
              inode := none
              modified_at := none
              mimetype := none } : FileRecord)] = [] := by
        rw [List.filter_cons]
        have : ¬ ((some pid0 : Option Nat) = some pid ∧ nm0 = part ∧
            true = true) := by
          intro hcc
          exact hpp ⟨(Option.some.inj hcc.1).symm, hcc.2.1.symm⟩
        simp only [decide_eq_true_eq]
        rw [if_neg (by simpa using this)]
        rfl
      rw [hfilt, List.append_nil, hr]
      show (if r.id = 0 then none else some r.id) = some c
      rw [if_neg (fun hcc => hc0 (hrc ▸ hcc))]
      rw [hrc]

theorem updRow_parent (targetId : Nat) (e : FileInfo) (fh : Option String)
    (r : FileRecord) : (updRow targetId e fh r).parent_id = r.parent_id := by
  unfold updRow
  split <;> rfl

theorem updRow_name (targetId : Nat) (e : FileInfo) (fh : Option String)
    (r : FileRecord) : (updRow targetId e fh r).file_name = r.file_name := by
  unfold updRow
  split <;> rfl

theorem dirRows_updateFile (a : Store) (t : Nat) (e : FileInfo)
    (fh : Option String) (pid : Nat) (nm : String) :
    dirRows (updateFile a t e fh) pid nm =
      (dirRows a pid nm).map (updRow t e fh) := by
  rw [updateFile_eq]
  unfold dirRows
  rw [List.filter_map]
  congr 1
  apply List.filter_congr
  intro r _
  simp only [Function.comp]
  rw [updRow_parent, updRow_name, updRow_dir]

theorem rootRows_updateFile (a : Store) (t : Nat) (e : FileInfo)
    (fh : Option String) :
    rootRows (updateFile a t e fh) =
      (rootRows a).map (updRow t e fh) := by
  rw [updateFile_eq]
  unfold rootRows
  rw [List.filter_map]
  congr 1
  apply List.filter_congr
  intro r _
  simp only [Function.comp]
  rw [updRow_parent]

theorem chainStep_updateFile (a : Store) (t : Nat) (e : FileInfo)
    (fh : Option String) (pid : Nat) (nm : String) :
    chainStep (updateFile a t e fh) pid nm = chainStep a pid nm := by
  unfold chainStep
  rw [dirRows_updateFile]
  cases hd : dirRows a pid nm with
  | nil => rfl
  | cons r t2 =>
    cases t2 with
    | nil =>
      show (if (updRow t e fh r).id = 0 then none
        else some (updRow t e fh r).id) =
        if r.id = 0 then none else some r.id
      rw [updRow_id]
    | cons r2 t3 => rfl

theorem rootOne_updateFile (a : Store) (t : Nat) (e : FileInfo)
    (fh : Option String) :
    rootOne (updateFile a t e fh) = rootOne a := by
  unfold rootOne
  rw [rootRows_updateFile]
  cases hd : rootRows a with
  | nil => rfl
  | cons r t2 =>
    cases t2 with
    | nil =>
      show some (updRow t e fh r).id = some r.id
      rw [updRow_id]
    | cons r2 t3 => rfl

theorem chainMono_updateFile (a : Store) (t : Nat) (e : FileInfo)
    (fh : Option String) : chainMono a (updateFile a t e fh) := by
  constructor
  · intro rid h
    rw [rootOne_updateFile]
    exact h
  · intro pid part c h
    rw [chainStep_updateFile]
    exact h

theorem fileMatch_updateFile (a : Store) (t : Nat) (e : FileInfo)
    (fh : Option String) (pid : Nat) (nm : String) :
    fileMatch (updateFile a t e fh) pid nm =
      (fileMatch a pid nm).map (updRow t e fh) := by
  rw [updateFile_eq]
  unfold fileMatch
  rw [List.filter_map]
  rw [show List.filter ((fun r => decide (r.parent_id = some pid ∧
      r.file_name = nm)) ∘ updRow t e fh) a.records =
    List.filter (fun r => decide (r.parent_id = some pid ∧
      r.file_name = nm)) a.records from by
    apply List.filter_congr
    intro r _
    simp only [Function.comp]
    rw [updRow_parent, updRow_name]]
  rw [List.head?_map]

/-- Resolvable chains and found first-matches survive the transition
from store `a` to store `b` unchanged. -/
def storeExtends (a b : Store) : Prop :=
  (∀ (ps : List String) (i : Nat), resolveParts a ps = some i →
    resolveParts b ps = some i) ∧ fmMono a b

theorem storeExtends_refl (a : Store) : storeExtends a a :=
  ⟨fun _ _ h => h, fun _ _ _ h => h⟩

theorem storeExtends_trans {a b c : Store} (hab : storeExtends a b)
    (hbc : storeExtends b c) : storeExtends a c :=
  ⟨fun ps i h => hbc.1 ps i (hab.1 ps i h),
   fun pid nm r h => hbc.2 pid nm r (hab.2 pid nm r h)⟩

theorem storeExtends_insertFile (a : Store) (pid0 : Nat) (e : FileInfo)
    (fh : Option String) : storeExtends a (insertFile a pid0 e fh) :=
  ⟨fun ps i h => resolveParts_mono (chainMono_insertFile a pid0 e fh) ps i h,
   fmMono_insertFile a pid0 e fh⟩

theorem storeExtends_insertDir (a : Store) (pid0 : Nat) (nm0 : String)
    (hfresh : dirRows a pid0 nm0 = []) :
    storeExtends a (insertDir a pid0 nm0) :=
  ⟨fun ps i h => resolveParts_mono (chainMono_insertDir a pid0 nm0 hfresh)
      ps i h,
   fmMono_insertDir a pid0 nm0⟩

/-! ## C3 — store well-formedness, sync predicates -/

/-- No two directory rows share a `(parent_id, name)` pair. -/
def DirUnique (s : Store) : Prop :=
  ∀ r1 ∈ s.records, ∀ r2 ∈ s.records, r1.is_directory = true →
    r2.is_directory = true → r1.parent_id = r2.parent_id →
    r1.file_name = r2.file_name → r1 = r2

/-- Store well-formedness for the idempotence theorem: well-formed and
positive ids (the serial sequence starts at 1) and unique directory
`(parent_id, name)` pairs. -/
def WFC3 (s : Store) : Prop :=
  IdWF s ∧ 1 ≤ s.nextId ∧ (∀ r ∈ s.records, 1 ≤ r.id) ∧ DirUnique s

theorem records_nodup {s : Store} (h : IdWF s) : s.records.Nodup :=
  List.Nodup.of_map _ h.1

theorem dirRows_short {s : Store} (hwf : WFC3 s) (pid : Nat)
    (nm : String) : dirRows s pid nm = [] ∨
      ∃ r, dirRows s pid nm = [r] := by
  cases hd : dirRows s pid nm with
  | nil => exact Or.inl rfl
  | cons r t =>
    right
    refine ⟨r, ?_⟩
    have hnd : (dirRows s pid nm).Nodup :=
      List.Nodup.filter _ (records_nodup hwf.1)
    have hall : ∀ x ∈ dirRows s pid nm, x = r := by
      intro x hx
      have hxm := dirRows_mem hx
      have hrm := dirRows_mem (hd ▸ List.mem_cons_self r t)
      exact hwf.2.2.2 x hxm.1 r hrm.1 hxm.2.2.2 hrm.2.2.2
        (hxm.2.1.trans hrm.2.1.symm) (hxm.2.2.1.trans hrm.2.2.1.symm)
    have hlen := length_le_one_of_all_eq hnd hall
    rw [hd] at hlen
    cases t with
    | nil => rfl
    | cons r2 t2 =>
      exact absurd hlen (by simp)

/-- The entry is in sync with the store: its parent path resolves
read-only to a parent id, and when fingerprinting succeeds the
`(parent_id, name)` lookup finds a record that either carries a null
field (the re-scan will raise before writing) or matches the fresh
fingerprint and second-truncated modification time (the re-scan will
skip). -/
def entrySynced (fs : FS) (s : Store) (e : FileInfo) : Prop :=
  ∃ pid, resolveParts s (pathParts e.parent_path) = some pid ∧
    ∀ fh, calculate_sha384 fs e.full_path = .ok fh →
    ∃ r, fileMatch s pid e.file_name = some r ∧
      (r.modified_at = none ∨ r.file_hash = none ∨
        (∃ h t, r.file_hash = some h ∧ fh = some h ∧
          r.modified_at = some t ∧ truncSec t = truncSec e.mtime))

/-- Every cached path prefix resolves read-only to its cached id. -/
def cacheOK (s : Store) (c : Cache) : Prop :=
  ∀ (q : String) (i : Nat), cacheLookup c q = some i →
    resolveParts s (pathParts q) = some i

theorem cacheOK_nil (s : Store) : cacheOK s [] := by
  intro q i h
  exact Option.noConfusion h

theorem cacheOK_cons {s : Store} {c : Cache} {k : String} {v : Nat}
    (hc : cacheOK s c) (hk : resolveParts s (pathParts k) = some v) :
    cacheOK s ((k, v) :: c) := by
  intro q i h
  unfold cacheLookup at h
  by_cases hkq : k = q
  · rw [if_pos hkq] at h
    rw [← hkq, ← Option.some.inj h]
    exact hk
  · rw [if_neg hkq] at h
    exact hc q i h

theorem cacheOK_mono2 {a b : Store} {c : Cache}
    (hres : ∀ (ps : List String) (i : Nat), resolveParts a ps = some i →
      resolveParts b ps = some i)
    (hc : cacheOK a c) : cacheOK b c := by
  intro q i h
  exact hres _ _ (hc q i h)

theorem cacheOK_mono {a b : Store} {c : Cache} (hext : storeExtends a b)
    (hc : cacheOK a c) : cacheOK b c :=
  cacheOK_mono2 hext.1 hc

theorem entrySynced_mono {a b : Store} {fs : FS} {e : FileInfo}
    (hext : storeExtends a b) (hs : entrySynced fs a e) :
    entrySynced fs b e := by
  obtain ⟨pid, hres, hrest⟩ := hs
  refine ⟨pid, hext.1 _ _ hres, ?_⟩
  intro fh hfh
  obtain ⟨r, hm, hflds⟩ := hrest fh hfh
  exact ⟨r, hext.2 _ _ _ hm, hflds⟩

/-! ## C3 — no two distinct parts lists resolve to the same id -/

theorem resolveFrom_snoc {s : Store} {p : Nat} {l : List String}
    {x : String} {i : Nat} (h : resolveFrom s p (l ++ [x]) = some i) :
    ∃ q, resolveFrom s p l = some q ∧ chainStep s q x = some i := by
  rw [resolveFrom_append] at h
  cases hl : resolveFrom s p l with
  | none =>
    rw [hl] at h
    exact Option.noConfusion h
  | some q =>
    rw [hl] at h
    refine ⟨q, rfl, ?_⟩
    simp only [resolveFrom] at h
    cases hcs : chainStep s q x with
    | none =>
      rw [hcs] at h
      exact Option.noConfusion h
    | some c =>
      rw [hcs] at h
      exact congrArg some (Option.some.inj h)

theorem resolveFrom_inj {s : Store} (hwf : IdWF s) {root : FileRecord}
    (hroot : rootRows s = [root]) :
    ∀ (n : Nat) (m1 m2 : List String) (i : Nat), m1.length ≤ n →
    resolveFrom s root.id m1 = some i →
    resolveFrom s root.id m2 = some i → m1 = m2 := by
  intro n
  induction n with
  | zero =>
    intro m1 m2 i hlen h1 h2
    have hm1 : m1 = [] := List.length_eq_zero.1 (Nat.le_zero.1 hlen)
    subst hm1
    have hi : root.id = i := Option.some.inj h1
    rcases List.eq_nil_or_concat m2 with rfl | ⟨l2, x2, rfl⟩
    · rfl
    · rw [List.concat_eq_append] at h2 ⊢
      obtain ⟨q2, hq2, hcs2⟩ := resolveFrom_snoc h2
      obtain ⟨r2, hr2, hr2i, _⟩ := chainStep_eq_some hcs2
      have hr2m := dirRows_mem (hr2 ▸ List.mem_cons_self r2 [])
      have hrootm := rootRows_mem (hroot ▸ List.mem_cons_self root [])
      have heq : r2 = root :=
        recordId_inj hwf hr2m.1 hrootm.1 (by rw [hr2i, ← hi])
      rw [heq] at hr2m
      rw [hrootm.2] at hr2m
      exact Option.noConfusion hr2m.2.1
  | succ n ih =>
    intro m1 m2 i hlen h1 h2
    rcases List.eq_nil_or_concat m1 with rfl | ⟨l1, x1, rfl⟩
    · exact ih [] m2 i (by simp) h1 h2
    · rw [List.concat_eq_append] at h1 hlen ⊢
      rcases List.eq_nil_or_concat m2 with rfl | ⟨l2, x2, rfl⟩
      · exact (ih [] (l1 ++ [x1]) i (by simp) h2 h1).symm
      · rw [List.concat_eq_append] at h2 ⊢
        obtain ⟨q1, hq1, hcs1⟩ := resolveFrom_snoc h1
        obtain ⟨q2, hq2, hcs2⟩ := resolveFrom_snoc h2
        obtain ⟨r1, hr1, hr1i, _⟩ := chainStep_eq_some hcs1
        obtain ⟨r2, hr2, hr2i, _⟩ := chainStep_eq_some hcs2
        have hr1m := dirRows_mem (hr1 ▸ List.mem_cons_self r1 [])
        have hr2m := dirRows_mem (hr2 ▸ List.mem_cons_self r2 [])
        have heq : r1 = r2 :=
          recordId_inj hwf hr1m.1 hr2m.1 (by rw [hr1i, hr2i])
        have hq12 : q1 = q2 := by
          have hp1 := hr1m.2.1
          have hp2 := hr2m.2.1
          rw [heq] at hp1
          rw [hp1] at hp2
          exact Option.some.inj hp2
        have hx12 : x1 = x2 := by
          have hn1 := hr1m.2.2.1
          have hn2 := hr2m.2.2.1
          rw [heq] at hn1
          rw [hn1] at hn2
          exact hn2
        have hl1len : l1.length ≤ n := by
          rw [List.length_append] at hlen
          simp only [List.length_singleton] at hlen
          omega
        rw [hq12] at hq1
        have hll : l1 = l2 := ih l1 l2 q2 hl1len hq1 hq2
        rw [hll, hx12]

theorem resolveParts_inj {s : Store} (hwf : IdWF s)
    {l1 l2 : List String} {i : Nat} (h1 : resolveParts s l1 = some i)
    (h2 : resolveParts s l2 = some i) : l1 = l2 := by
  cases l1 with
  | nil => exact Option.noConfusion h1
  | cons a1 m1 =>
    cases l2 with
    | nil => exact Option.noConfusion h2
    | cons a2 m2 =>
      simp only [resolveParts] at h1 h2
      by_cases ha1 : a1 = slashStr
      · by_cases ha2 : a2 = slashStr
        · rw [if_pos ha1] at h1
          rw [if_pos ha2] at h2
          cases hro : rootOne s with
          | none =>
            rw [hro] at h1
            exact Option.noConfusion h1
          | some rid =>
            rw [hro] at h1 h2
            obtain ⟨root, hroot, hrid⟩ := rootOne_eq_some hro
            rw [← hrid] at h1 h2
            rw [ha1, ha2,
              resolveFrom_inj hwf hroot m1.length m1 m2 i (le_refl _) h1 h2]
        · rw [if_neg ha2] at h2
          exact Option.noConfusion h2
      · rw [if_neg ha1] at h1
        exact Option.noConfusion h1

/-! ## C3 — the resolver performs no writes on a synced store -/

theorem resolveParts_snoc (s : Store) (anchor : String) (l : List String)
    (x : String) :
    resolveParts s ((anchor :: l) ++ [x]) =
      match resolveParts s (anchor :: l) with
      | some p => chainStep s p x
      | none => none := by
  simp only [resolveParts, List.cons_append]
  by_cases ha : anchor = slashStr
  · rw [if_pos ha, if_pos ha]
    cases hro : rootOne s with
    | none => rfl
    | some rid =>
      show resolveFrom s rid (l ++ [x]) =
        match resolveFrom s rid l with
        | some p => chainStep s p x
        | none => none
      rw [resolveFrom_append]
      cases hl : resolveFrom s rid l with
      | none => rfl
      | some p =>
        show resolveFrom s p [x] = chainStep s p x
        simp only [resolveFrom]
        cases hcs : chainStep s p x with
        | none => simp [hcs]
        | some c => simp [hcs, resolveFrom]
  · rw [if_neg ha, if_neg ha]

theorem resolveParts_slash_cons (s : Store) (l : List String) :
    resolveParts s (slashStr :: l) =
      match rootOne s with
      | some rid => resolveFrom s rid l
      | none => none := by
  simp [resolveParts]

theorem pathParts_shape {p : String} (h : isAbsolutePath p = true) :
    pathParts p = slashStr :: pathComponents p := by
  unfold pathParts
  rw [h]
  simp

theorem resolveParts_isAbsolute {s : Store} {p : String} {i : Nat}
    (h : resolveParts s (pathParts p) = some i) :
    isAbsolutePath p = true := by
  by_contra hc
  rw [Bool.not_eq_true] at hc
  unfold pathParts at h
  rw [hc] at h
  simp only [Bool.false_eq_true, if_false] at h
  cases hpc : pathComponents p with
  | nil =>
    rw [hpc] at h
    exact Option.noConfusion h
  | cons x l =>
    rw [hpc] at h
    simp only [resolveParts] at h
    by_cases hx : x = slashStr
    · have hv := pathComponents_valid p x (hpc ▸ List.mem_cons_self x l)
      rw [hx] at hv
      exact hv.2.2 (by rw [show slashStr.data = [slashChar] from rfl]; simp)
    · rw [if_neg hx] at h
      exact Option.noConfusion h

theorem ensureWalk_noWrite :
    ∀ (parts : List String) (db : Session) (cache : Cache) (pfx : String)
      (pid q : Nat),
    (∀ x ∈ parts, validComp x) →
    isAbsolutePath pfx = true →
    resolveParts db.current (pathParts pfx) = some pid →
    resolveFrom db.current pid parts = some q →
    cacheOK db.current cache →
    ∃ cache2, ensureWalk db cache pfx pid parts = .ok (q, db, cache2) ∧
      cacheOK db.current cache2 := by
  intro parts
  induction parts with
  | nil =>
    intro db cache pfx pid q hv habs hres hfrom hc
    have hq : pid = q := Option.some.inj hfrom
    subst hq
    exact ⟨cache, rfl, hc⟩
  | cons part rest ih =>
    intro db cache pfx pid q hv habs hres hfrom hc
    have hvp : validComp part := hv part (List.mem_cons_self part rest)
    have hvr : ∀ x ∈ rest, validComp x :=
      fun x hx => hv x (List.mem_cons_of_mem part hx)
    simp only [resolveFrom] at hfrom
    cases hcs : chainStep db.current pid part with
    | none =>
      rw [hcs] at hfrom
      exact Option.noConfusion hfrom
    | some c =>
      rw [hcs] at hfrom
      have hcurparts : pathParts (pathJoin pfx part) =
          pathParts pfx ++ [part] := pathParts_pathJoin habs hvp
      have hcurabs : isAbsolutePath (pathJoin pfx part) = true :=
        pathJoin_abs habs
      have hrescur : resolveParts db.current
          (pathParts (pathJoin pfx part)) = some c := by
        rw [hcurparts, pathParts_shape habs]
        rw [pathParts_shape habs] at hres
        rw [resolveParts_snoc, hres]
        exact hcs
      simp only [ensureWalk]
      cases hcl : cacheLookup cache (pathJoin pfx part) with
      | some cid =>
        simp only [hcl]
        have hcid : cid = c := by
          have := hc _ _ hcl
          rw [hrescur] at this
          exact Option.some.inj this.symm
        rw [hcid]
        exact ih db cache (pathJoin pfx part) c q hvr hcurabs hrescur
          hfrom hc
      | none =>
        simp only [hcl]
        obtain ⟨r, hr, hrc, hc0⟩ := chainStep_eq_some hcs
        have hscal : scalarOneOrNoneDir db.current pid part =
            .ok (some r.id) := by
          unfold scalarOneOrNoneDir
          rw [hr]
        simp only [hscal]
        have htid : truthyId (some r.id) = some c := by
          simp only [truthyId]
          rw [hrc, if_neg hc0]
        simp only [htid]
        exact ih db ((pathJoin pfx part, c) :: cache) (pathJoin pfx part)
          c q hvr hcurabs hrescur hfrom (cacheOK_cons hc hrescur)

theorem ensure_noWrite (db : Session) (p : String) (cache : Cache)
    (pid : Nat)
    (hres : resolveParts db.current (pathParts p) = some pid)
    (hc : cacheOK db.current cache) :
    ∃ cache2, ensure_path_exists db p cache = .ok (pid, db, cache2) ∧
      cacheOK db.current cache2 := by
  have habs := resolveParts_isAbsolute hres
  simp only [ensure_path_exists]
  cases hcl : cacheLookup cache p with
  | some cid =>
    simp only [hcl]
    have hcid : cid = pid := by
      have := hc _ _ hcl
      rw [hres] at this
      exact Option.some.inj this.symm
    rw [hcid]
    exact ⟨cache, rfl, hc⟩
  | none =>
    simp only [hcl, habs, if_true]
    rw [pathParts_shape habs, resolveParts_slash_cons] at hres
    cases hro : rootOne db.current with
    | none =>
      simp only [hro] at hres
      exact Option.noConfusion hres
    | some rid =>
      simp only [hro] at hres
      obtain ⟨root, hroot, hrid⟩ := rootOne_eq_some hro
      have hscal : scalarOneRoot db.current = .ok rid := by
        unfold scalarOneRoot
        simp only [hroot]
        rw [hrid]
      simp only [hscal]
      have hslashres : resolveParts db.current (pathParts slashStr) =
          some rid := by
        rw [pathParts_slash, resolveParts_slash_cons, hro]
        rfl
      exact ensureWalk_noWrite (pathComponents p) db
        ((slashStr, rid) :: cache) slashStr rid pid
        (pathComponents_valid p) rfl hslashres hres
        (cacheOK_cons hc hslashres)

/-! ## C3 — the resolver on a general well-formed store -/

theorem truthyId_eq_some {found : Option Nat} {cid : Nat}
    (h : truthyId found = some cid) : found = some cid ∧ ¬ cid = 0 := by
  cases found with
  | none => exact Option.noConfusion h
  | some c =>
    simp only [truthyId] at h
    by_cases h0 : c = 0
    · rw [if_pos h0] at h
      exact Option.noConfusion h
    · rw [if_neg h0] at h
      have hcc := Option.some.inj h
      subst hcc
      exact ⟨rfl, h0⟩

theorem truthyId_eq_none {found : Option Nat}
    (h : truthyId found = none) : found = none ∨ found = some 0 := by
  cases found with
  | none => exact Or.inl rfl
  | some c =>
    simp only [truthyId] at h
    by_cases h0 : c = 0
    · right
      rw [h0]
    · rw [if_neg h0] at h
      exact Option.noConfusion h

theorem scalarDir_eq_some {s : Store} {pid : Nat} {nm : String}
    {cid : Nat} (h : scalarOneOrNoneDir s pid nm = .ok (some cid)) :
    ∃ r, dirRows s pid nm = [r] ∧ r.id = cid := by
  unfold scalarOneOrNoneDir at h
  cases hd : dirRows s pid nm with
  | nil =>
    simp only [hd] at h
    exact Option.noConfusion (Except.ok.inj h)
  | cons r t =>
    cases t with
    | nil =>
      simp only [hd] at h
      exact ⟨r, rfl, Option.some.inj (Except.ok.inj h)⟩
    | cons r2 t2 =>
      simp only [hd] at h
      exact Except.noConfusion h

theorem scalarDir_eq_none {s : Store} {pid : Nat} {nm : String}
    (h : scalarOneOrNoneDir s pid nm = .ok none) :
    dirRows s pid nm = [] := by
  unfold scalarOneOrNoneDir at h
  cases hd : dirRows s pid nm with
  | nil => rfl
  | cons r t =>
    cases t with
    | nil =>
      simp only [hd] at h
      exact Option.noConfusion (Except.ok.inj h)
    | cons r2 t2 =>
      simp only [hd] at h
      exact Except.noConfusion h

theorem IdWF_updateFile {s : Store} (h : IdWF s) (t : Nat) (e : FileInfo)
    (fh : Option String) : IdWF (updateFile s t e fh) := by
  rw [updateFile_eq]
  constructor
  · have hmm : List.map (fun r => r.id)
        (List.map (updRow t e fh) s.records) =
        List.map (fun r => r.id) s.records := by
      rw [List.map_map]
      apply List.map_congr_left
      intro r _
      exact updRow_id t e fh r
    rw [hmm]
    exact h.1
  · intro r hr
    rw [List.mem_map] at hr
    obtain ⟨q, hq, hqr⟩ := hr
    have := h.2 q hq
    rw [← hqr, updRow_id]
    exact this

theorem WFC3_insertDir {s : Store} (h : WFC3 s) {pid : Nat} {nm : String}
    (hfresh : dirRows s pid nm = []) : WFC3 (insertDir s pid nm) := by
  refine ⟨IdWF_append h.1 rfl, by show 1 ≤ s.nextId + 1; omega, ?_, ?_⟩
  · intro r hr
    rw [show (insertDir s pid nm).records = s.records ++ [_] from rfl,
      List.mem_append] at hr
    rcases hr with hr | hr
    · exact h.2.2.1 r hr
    · rw [List.mem_singleton] at hr
      subst hr
      exact h.2.1
  · intro r1 hr1 r2 hr2 hd1 hd2 hp hn
    rw [show (insertDir s pid nm).records = s.records ++ [_] from rfl,
      List.mem_append] at hr1 hr2
    have hnotold : ∀ r0 ∈ s.records,
        r0.parent_id = some pid → r0.file_name = nm →
        r0.is_directory = true → False := by
      intro r0 hr0 hp0 hn0 hd0
      have : r0 ∈ dirRows s pid nm := by
        unfold dirRows
        rw [List.mem_filter]
        exact ⟨hr0, by simp [hp0, hn0, hd0]⟩
      rw [hfresh] at this
      exact List.not_mem_nil r0 this
    rcases hr1 with hr1 | hr1 <;> rcases hr2 with hr2 | hr2
    · exact h.2.2.2 r1 hr1 r2 hr2 hd1 hd2 hp hn
    · rw [List.mem_singleton] at hr2
      exact absurd hd1 (fun hdd =>
        hnotold r1 hr1 (by rw [hp, hr2]) (by rw [hn, hr2]) hdd)
    · rw [List.mem_singleton] at hr1
      exact absurd hd2 (fun hdd =>
        hnotold r2 hr2 (by rw [← hp, hr1]) (by rw [← hn, hr1]) hdd)
    · rw [List.mem_singleton] at hr1 hr2
      rw [hr1, hr2]

theorem WFC3_insertFile {s : Store} (h : WFC3 s) (pid : Nat)
    (e : FileInfo) (fh : Option String) : WFC3 (insertFile s pid e fh) := by
  refine ⟨IdWF_append h.1 rfl, by show 1 ≤ s.nextId + 1; omega, ?_, ?_⟩
  · intro r hr
    rw [show (insertFile s pid e fh).records = s.records ++ [_] from rfl,
      List.mem_append] at hr
    rcases hr with hr | hr
    · exact h.2.2.1 r hr
    · rw [List.mem_singleton] at hr
      subst hr
      exact h.2.1
  · intro r1 hr1 r2 hr2 hd1 hd2 hp hn
    rw [show (insertFile s pid e fh).records = s.records ++ [_] from rfl,
      List.mem_append] at hr1 hr2
    rcases hr1 with hr1 | hr1 <;> rcases hr2 with hr2 | hr2
    · exact h.2.2.2 r1 hr1 r2 hr2 hd1 hd2 hp hn
    · rw [List.mem_singleton] at hr2
      rw [hr2] at hd2
      exact absurd hd2 (by simp)
    · rw [List.mem_singleton] at hr1
      rw [hr1] at hd1
      exact absurd hd1 (by simp)
    · rw [List.mem_singleton] at hr1 hr2
      rw [hr1, hr2]

theorem WFC3_updateFile {s : Store} (h : WFC3 s) (t : Nat) (e : FileInfo)
    (fh : Option String) : WFC3 (updateFile s t e fh) := by
  refine ⟨IdWF_updateFile h.1 t e fh, h.2.1, ?_, ?_⟩
  · intro r hr
    rw [updateFile_eq] at hr
    rw [List.mem_map] at hr
    obtain ⟨q, hq, hqr⟩ := hr
    have := h.2.2.1 q hq
    rw [← hqr, updRow_id]
    exact this
  · intro r1 hr1 r2 hr2 hd1 hd2 hp hn
    rw [updateFile_eq] at hr1 hr2
    rw [List.mem_map] at hr1 hr2
    obtain ⟨q1, hq1, hq1r⟩ := hr1
    obtain ⟨q2, hq2, hq2r⟩ := hr2
    rw [← hq1r] at hd1 hp hn
    rw [← hq2r] at hd2 hp hn
    rw [updRow_dir] at hd1 hd2
    rw [updRow_parent, updRow_parent] at hp
    rw [updRow_name, updRow_name] at hn
    rw [← hq1r, ← hq2r,
      h.2.2.2 q1 hq1 q2 hq2 hd1 hd2 hp hn]

theorem ensureWalk_general :
    ∀ (parts : List String) (db : Session) (cache : Cache) (pfx : String)
      (pid q : Nat) (db2 : Session) (cache2 : Cache),
    (∀ x ∈ parts, validComp x) →
    isAbsolutePath pfx = true →
    WFC3 db.current → cacheOK db.current cache →
    resolveParts db.current (pathParts pfx) = some pid →
    ensureWalk db cache pfx pid parts = .ok (q, db2, cache2) →
    WFC3 db2.current ∧ cacheOK db2.current cache2 ∧
    resolveParts db2.current (pathParts pfx ++ parts) = some q ∧
    storeExtends db.current db2.current ∧
    db2.committed = db.committed := by
  intro parts
  induction parts with
  | nil =>
    intro db cache pfx pid q db2 cache2 hv habs hwf hc hres hwalk
    simp only [ensureWalk] at hwalk
    have hinj := Except.ok.inj hwalk
    rw [Prod.mk.injEq, Prod.mk.injEq] at hinj
    obtain ⟨hq, hdb, hcache⟩ := hinj
    subst hq
    subst hdb
    subst hcache
    rw [List.append_nil]
    exact ⟨hwf, hc, hres, storeExtends_refl _, rfl⟩
  | cons part rest ih =>
    intro db cache pfx pid q db2 cache2 hv habs hwf hc hres hwalk
    have hvp : validComp part := hv part (List.mem_cons_self part rest)
    have hvr : ∀ x ∈ rest, validComp x :=
      fun x hx => hv x (List.mem_cons_of_mem part hx)
    have hcurparts : pathParts (pathJoin pfx part) =
        pathParts pfx ++ [part] := pathParts_pathJoin habs hvp
    have hcurabs : isAbsolutePath (pathJoin pfx part) = true :=
      pathJoin_abs habs
    have happ : pathParts (pathJoin pfx part) ++ rest =
        pathParts pfx ++ part :: rest := by
      rw [hcurparts, List.append_assoc, List.singleton_append]
    simp only [ensureWalk] at hwalk
    cases hcl : cacheLookup cache (pathJoin pfx part) with
    | some cid =>
      simp only [hcl] at hwalk
      have hrescur : resolveParts db.current
          (pathParts (pathJoin pfx part)) = some cid := hc _ _ hcl
      have hrec := ih db cache (pathJoin pfx part) cid q db2 cache2
        hvr hcurabs hwf hc hrescur hwalk
      rw [happ] at hrec
      exact hrec
    | none =>
      simp only [hcl] at hwalk
      cases hs : scalarOneOrNoneDir db.current pid part with
      | error err =>
        simp only [hs] at hwalk
        exact Except.noConfusion hwalk
      | ok found =>
        simp only [hs] at hwalk
        cases ht : truthyId found with
        | some cid =>
          simp only [ht] at hwalk
          obtain ⟨hfound, hc0⟩ := truthyId_eq_some ht
          subst hfound
          obtain ⟨r, hr, hrc⟩ := scalarDir_eq_some hs
          have hcs : chainStep db.current pid part = some cid := by
            unfold chainStep
            simp only [hr]
            rw [hrc, if_neg hc0]
          have hrescur : resolveParts db.current
              (pathParts (pathJoin pfx part)) = some cid := by
            rw [hcurparts, pathParts_shape habs]
            rw [pathParts_shape habs] at hres
            rw [resolveParts_snoc, hres]
            exact hcs
          have hrec := ih db ((pathJoin pfx part, cid) :: cache)
            (pathJoin pfx part) cid q db2 cache2 hvr hcurabs hwf
            (cacheOK_cons hc hrescur) hrescur hwalk
          rw [happ] at hrec
          exact hrec
        | none =>
          simp only [ht] at hwalk
          rcases truthyId_eq_none ht with hfound | hfound
          · subst hfound
            have hfresh := scalarDir_eq_none hs
            have hwf1 : WFC3 (insertDir db.current pid part) :=
              WFC3_insertDir hwf hfresh
            have hext1 : storeExtends db.current
                (insertDir db.current pid part) :=
              storeExtends_insertDir _ pid part hfresh
            have hcs1 : chainStep (insertDir db.current pid part) pid
                part = some db.current.nextId := by
              unfold chainStep
              rw [show insertDir db.current pid part =
                { records := db.current.records ++ [_],
                  nextId := db.current.nextId + 1 } from rfl]
              rw [dirRows_append_dir pid part]
              rw [hfresh, List.nil_append]
              rw [show List.filter (fun r2 => decide
                (r2.parent_id = some pid ∧ r2.file_name = part ∧
                  r2.is_directory = true))
                [({ id := db.current.nextId
                    parent_id := some pid
                    file_name := part
                    is_directory := true
                    file_hash := none
                    file_size := none
                    device_id := none
                    inode := none
                    modified_at := none
                    mimetype := none } : FileRecord)] =
                [({ id := db.current.nextId
                    parent_id := some pid
                    file_name := part
                    is_directory := true
                    file_hash := none
                    file_size := none
                    device_id := none
                    inode := none
                    modified_at := none
                    mimetype := none } : FileRecord)] from by simp]
              show (if db.current.nextId = 0 then none
                else some db.current.nextId) = some db.current.nextId
              rw [if_neg (by have := hwf.2.1; omega)]
            have hrescur : resolveParts (insertDir db.current pid part)
                (pathParts (pathJoin pfx part)) =
                some db.current.nextId := by
              rw [hcurparts, pathParts_shape habs]
              rw [pathParts_shape habs] at hres
              rw [resolveParts_snoc]
              rw [hext1.1 _ _ hres]
              exact hcs1
            have hrec := ih
              { db with
                current := insertDir db.current pid part
                insCount := db.insCount + 1 }
              ((pathJoin pfx part, db.current.nextId) :: cache)
              (pathJoin pfx part) db.current.nextId q db2 cache2 hvr
              hcurabs hwf1
              (cacheOK_cons (cacheOK_mono hext1 hc) hrescur) hrescur
              hwalk
            rw [happ] at hrec
            exact ⟨hrec.1, hrec.2.1, hrec.2.2.1,
              storeExtends_trans hext1 hrec.2.2.2.1, hrec.2.2.2.2⟩
          · subst hfound
            obtain ⟨r, hr, hrc⟩ := scalarDir_eq_some hs
            have hrm := dirRows_mem (hr ▸ List.mem_cons_self r [])
            have := hwf.2.2.1 r hrm.1
            omega

theorem ensure_general (db : Session) (p : String) (cache : Cache)
    (pid : Nat) (db2 : Session) (cache2 : Cache)
    (hwf : WFC3 db.current) (hc : cacheOK db.current cache)
    (hens : ensure_path_exists db p cache = .ok (pid, db2, cache2)) :
    WFC3 db2.current ∧ cacheOK db2.current cache2 ∧
    resolveParts db2.current (pathParts p) = some pid ∧
    storeExtends db.current db2.current ∧
    db2.committed = db.committed := by
  simp only [ensure_path_exists] at hens
  cases hcl : cacheLookup cache p with
  | some cid =>
    simp only [hcl] at hens
    have hinj := Except.ok.inj hens
    rw [Prod.mk.injEq, Prod.mk.injEq] at hinj
    obtain ⟨hq, hdb, hcache⟩ := hinj
    subst hq
    subst hdb
    subst hcache
    exact ⟨hwf, hc, hc _ _ hcl, storeExtends_refl _, rfl⟩
  | none =>
    simp only [hcl] at hens
    cases habs : isAbsolutePath p with
    | false =>
      rw [habs] at hens
      simp only [Bool.false_eq_true, if_false] at hens
      exact Except.noConfusion hens
    | true =>
      rw [habs] at hens
      simp only [if_true] at hens
      cases hroot : scalarOneRoot db.current with
      | error err =>
        simp only [hroot] at hens
        exact Except.noConfusion hens
      | ok rid =>
        simp only [hroot] at hens
        have hrr : ∃ root, rootRows db.current = [root] ∧ root.id = rid := by
          unfold scalarOneRoot at hroot
          cases hd : rootRows db.current with
          | nil =>
            simp only [hd] at hroot
            exact Except.noConfusion hroot
          | cons r t =>
            cases t with
            | nil =>
              simp only [hd] at hroot
              exact ⟨r, rfl, Except.ok.inj hroot⟩
            | cons r2 t2 =>
              simp only [hd] at hroot
              exact Except.noConfusion hroot
        obtain ⟨root, hrootrows, hrid⟩ := hrr
        have hro : rootOne db.current = some rid := by
          unfold rootOne
          simp only [hrootrows]
          rw [hrid]
        have hslashres : resolveParts db.current (pathParts slashStr) =
            some rid := by
          rw [pathParts_slash, resolveParts_slash_cons, hro]
          rfl
        have hrec := ensureWalk_general (pathComponents p) db
          ((slashStr, rid) :: cache) slashStr rid pid db2 cache2
          (pathComponents_valid p) rfl hwf
          (cacheOK_cons hc hslashres) hslashres hens
        rw [pathParts_slash] at hrec
        rw [show [slashStr] ++ pathComponents p =
          slashStr :: pathComponents p from rfl] at hrec
        rw [← pathParts_shape habs] at hrec
        exact hrec

/-! ## C3 — one reconciliation step on a synced store -/

theorem updRow_self (e : FileInfo) (fh : Option String) (r : FileRecord) :
    updRow r.id e fh r =
      { r with
        file_hash := fh
        file_size := some e.file_size
        modified_at := some e.mtime
        mimetype := e.mimetype
        inode := some e.inode
        device_id := some e.device_id } := by
  unfold updRow
  rw [if_pos rfl]

theorem fileMatch_insert_self (s : Store) (pid : Nat) (e : FileInfo)
    (fh : Option String) (hnone : fileMatch s pid e.file_name = none) :
    fileMatch (insertFile s pid e fh) pid e.file_name =
      some { id := s.nextId
             parent_id := some pid
             file_name := e.file_name
             is_directory := false
             file_hash := fh
             file_size := some e.file_size
             device_id := some e.device_id
             inode := some e.inode
             modified_at := some e.mtime
             mimetype := e.mimetype } := by
  unfold fileMatch at hnone ⊢
  rw [show (insertFile s pid e fh).records = s.records ++ [_] from rfl]
  rw [List.filter_append]
  rw [List.head?_eq_none_iff] at hnone
  rw [hnone, List.nil_append]
  rw [List.filter_cons]
  rw [if_pos (by simp)]
  rfl

theorem calculate_congr {fs : FS} {p1 p2 : String}
    (h : fs p1 = fs p2) : calculate_sha384 fs p1 = calculate_sha384 fs p2 := by
  unfold calculate_sha384
  rw [h]

theorem entrySynced_updateFile {fs : FS} {s : Store} {e0 e : FileInfo}
    {existing : FileRecord} {pid_e : Nat} {fh : Option String}
    (hwf : WFC3 s)
    (hm : fileMatch s pid_e e.file_name = some existing)
    (hrese : resolveParts s (pathParts e.parent_path) = some pid_e)
    (hfh : calculate_sha384 fs e.full_path = .ok fh)
    (hcompat : pathParts e0.parent_path = pathParts e.parent_path →
      e0.file_name = e.file_name →
      fs e0.full_path = fs e.full_path ∧
      truncSec e0.mtime = truncSec e.mtime)
    (hs0 : entrySynced fs s e0) :
    entrySynced fs (updateFile s existing.id e fh) e0 := by
  obtain ⟨pid0, hres0, hrest0⟩ := hs0
  refine ⟨pid0,
    resolveParts_mono (chainMono_updateFile s existing.id e fh) _ _ hres0,
    ?_⟩
  intro fh0 hfh0
  obtain ⟨r0, hm0, hflds0⟩ := hrest0 fh0 hfh0
  rw [fileMatch_updateFile, hm0]
  by_cases hid : r0.id = existing.id
  · have hr0m := fileMatch_spec hm0
    have hexm := fileMatch_spec hm
    have hr0e : r0 = existing := recordId_inj hwf.1 hr0m.1 hexm.1 hid
    have hpid : pid0 = pid_e := by
      have h1 := hr0m.2.1
      rw [hr0e, hexm.2.1] at h1
      exact Option.some.inj h1.symm
    have hnm : e0.file_name = e.file_name := by
      have h1 := hr0m.2.2
      rw [hr0e, hexm.2.2] at h1
      exact h1.symm
    have hparts : pathParts e0.parent_path = pathParts e.parent_path := by
      rw [hpid] at hres0
      exact resolveParts_inj hwf.1 hres0 hrese
    obtain ⟨hfs, htr⟩ := hcompat hparts hnm
    have hfh0e : fh0 = fh := by
      have := calculate_congr hfs
      rw [hfh0, hfh] at this
      exact Except.ok.inj this
    refine ⟨updRow existing.id e fh r0, rfl, ?_⟩
    rw [show updRow existing.id e fh r0 = updRow r0.id e fh r0 from by
      rw [hid]]
    rw [updRow_self]
    cases fh with
    | none =>
      right
      left
      rfl
    | some h =>
      right
      right
      exact ⟨h, e.mtime, rfl, hfh0e, rfl, htr.symm⟩
  · refine ⟨updRow existing.id e fh r0, rfl, ?_⟩
    rw [updRow_of_ne existing.id e fh hid]
    exact hflds0

theorem processEntry_syncs {fs : FS} {db db' : Session} {cache c' : Cache}
    {e : FileInfo}
    (hwf : WFC3 db.current) (hco : cacheOK db.current cache)
    (h : processEntry fs db cache e = .ok (db', c')) :
    WFC3 db'.current ∧ cacheOK db'.current c' ∧
    entrySynced fs db'.current e ∧
    (∀ e0 : FileInfo, entrySynced fs db.current e0 →
      (pathParts e0.parent_path = pathParts e.parent_path →
        e0.file_name = e.file_name →
        fs e0.full_path = fs e.full_path ∧
        truncSec e0.mtime = truncSec e.mtime) →
      entrySynced fs db'.current e0) := by
  simp only [processEntry] at h
  cases hens : ensure_path_exists db e.parent_path cache with
  | error t =>
    obtain ⟨err, db1, c1⟩ := t
    simp only [hens] at h
    exact Except.noConfusion h
  | ok t =>
    obtain ⟨pid, db1, c1⟩ := t
    simp only [hens] at h
    obtain ⟨hwf1, hco1, hres1, hext1, _⟩ :=
      ensure_general db e.parent_path cache pid db1 c1 hwf hco hens
    cases hfh : calculate_sha384 fs e.full_path with
    | error err =>
      simp only [hfh] at h
      exact Except.noConfusion h
    | ok file_hash =>
      simp only [hfh] at h
      cases hm : fileMatch db1.current pid e.file_name with
      | none =>
        simp only [hm] at h
        have hinj := Except.ok.inj h
        rw [Prod.mk.injEq] at hinj
        obtain ⟨hdb', hc'⟩ := hinj
        subst hdb'
        subst hc'
        have hextI := storeExtends_insertFile db1.current pid e file_hash
        refine ⟨WFC3_insertFile hwf1 _ _ _, cacheOK_mono hextI hco1,
          ⟨pid, hextI.1 _ _ hres1, ?_⟩,
          fun e0 hs0 _ =>
            entrySynced_mono (storeExtends_trans hext1 hextI)
              (entrySynced_mono (storeExtends_refl _) hs0)⟩
        intro fh0 hfh0
        have hfe : fh0 = file_hash := by
          rw [hfh] at hfh0
          exact (Except.ok.inj hfh0).symm
        refine ⟨_, fileMatch_insert_self db1.current pid e file_hash hm, ?_⟩
        cases file_hash with
        | none =>
          right
          left
          rfl
        | some hh =>
          right
          right
          exact ⟨hh, e.mtime, rfl, by rw [hfe], rfl, rfl⟩
      | some existing =>
        simp only [hm] at h
        cases hmt : existing.modified_at with
        | none =>
          simp only [hmt] at h
          exact Except.noConfusion h
        | some existing_mtime =>
          simp only [hmt] at h
          cases hhash : existing.file_hash with
          | none =>
            simp only [hhash] at h
            exact Except.noConfusion h
          | some existing_hash =>
            simp only [hhash] at h
            by_cases hcond : some existing_hash ≠ file_hash ∨
                truncSec existing_mtime ≠ truncSec e.mtime
            · rw [if_pos hcond] at h
              have hinj := Except.ok.inj h
              rw [Prod.mk.injEq] at hinj
              obtain ⟨hdb', hc'⟩ := hinj
              subst hdb'
              subst hc'
              refine ⟨WFC3_updateFile hwf1 _ _ _,
                cacheOK_mono2 (fun ps i hh =>
                  resolveParts_mono
                    (chainMono_updateFile db1.current existing.id e file_hash)
                    ps i hh) hco1,
                ⟨pid,
                  resolveParts_mono
                    (chainMono_updateFile db1.current existing.id e file_hash)
                    _ _ hres1, ?_⟩,
                fun e0 hs0 hcompat =>
                  entrySynced_updateFile hwf1 hm hres1 hfh hcompat
                    (entrySynced_mono hext1 hs0)⟩
              intro fh0 hfh0
              have hfe : fh0 = file_hash := by
                rw [hfh] at hfh0
                exact (Except.ok.inj hfh0).symm
              refine ⟨updRow existing.id e file_hash existing,
                by rw [fileMatch_updateFile, hm]; rfl, ?_⟩
              rw [updRow_self]
              cases file_hash with
              | none =>
                right
                left
                rfl
              | some hh =>
                right
                right
                exact ⟨hh, e.mtime, rfl, by rw [hfe], rfl, rfl⟩
            · rw [if_neg hcond] at h
              have hinj := Except.ok.inj h
              rw [Prod.mk.injEq] at hinj
              obtain ⟨hdb', hc'⟩ := hinj
              subst hdb'
              subst hc'
              push_neg at hcond
              refine ⟨hwf1, hco1, ⟨pid, hres1, ?_⟩,
                fun e0 hs0 _ => entrySynced_mono hext1 hs0⟩
              intro fh0 hfh0
              have hfe : fh0 = file_hash := by
                rw [hfh] at hfh0
                exact (Except.ok.inj hfh0).symm
              exact ⟨existing, hm, Or.inr (Or.inr
                ⟨existing_hash, existing_mtime, hhash,
                  by rw [hfe, ← hcond.1], hmt, hcond.2⟩)⟩

/-- The stream is self-consistent: entries that land on the same
(parent path, name) key agree on their on-disk content and
second-truncated mtime (a single filesystem snapshot has this shape). -/
def pairCompat (fs : FS) (l : List FileInfo) : Prop :=
  ∀ e1 ∈ l, ∀ e2 ∈ l,
    pathParts e1.parent_path = pathParts e2.parent_path →
    e1.file_name = e2.file_name →
    fs e1.full_path = fs e2.full_path ∧
    truncSec e1.mtime = truncSec e2.mtime

/-- The prefix of the stream actually processed before the MAX_FILES
cap is reached (processor.py line 52). -/
def processedPfx (mx : Int) : Nat → List FileInfo → List FileInfo
  | _, [] => []
  | i, e :: rest =>
    if mx > 0 ∧ mx ≤ (i : Int) then [] else e :: processedPfx mx (i + 1) rest

theorem processEntry_noWrite {fs : FS} {db : Session} {cache : Cache}
    {e : FileInfo}
    (hco : cacheOK db.current cache)
    (hs : entrySynced fs db.current e) :
    (∃ c1, processEntry fs db cache e = .ok (db, c1) ∧
      cacheOK db.current c1) ∨
    (∃ err c1, processEntry fs db cache e = .error (err, db, c1)) := by
  obtain ⟨pid, hres, hrest⟩ := hs
  obtain ⟨c2, hens, hco2⟩ := ensure_noWrite db e.parent_path cache pid hres hco
  simp only [processEntry, hens]
  cases hfh : calculate_sha384 fs e.full_path with
  | error err =>
    exact Or.inr ⟨err, c2, rfl⟩
  | ok fh =>
    obtain ⟨r, hm, hdisj⟩ := hrest fh hfh
    simp only [hm]
    rcases hdisj with hmt | hhh | ⟨h0, t0, hrh, hfh0, hrt, htr⟩
    · simp only [hmt]
      exact Or.inr ⟨.attributeError, c2, rfl⟩
    · cases hrt : r.modified_at with
      | none =>
        exact Or.inr ⟨.attributeError, c2, rfl⟩
      | some t =>
        simp only [hhh]
        exact Or.inr ⟨.attributeError, c2, rfl⟩
    · simp only [hrt, hrh]
      rw [if_neg (by push_neg; exact ⟨hfh0.symm, htr⟩)]
      exact Or.inl ⟨c2, rfl, hco2⟩

theorem processLoop_sync (fs : FS) (mx : Int) (stream : List FileInfo)
    (hpc : pairCompat fs stream) :
    ∀ (l : List FileInfo) (db : Session) (cache : Cache) (i : Nat)
      (dbL : Session),
      (∀ x ∈ l, x ∈ stream) →
      WFC3 db.current → cacheOK db.current cache →
      processLoop fs mx db cache i l = .ok dbL →
      WFC3 dbL.current ∧
      (∀ e0 ∈ stream, entrySynced fs db.current e0 →
        entrySynced fs dbL.current e0) ∧
      (∀ e ∈ processedPfx mx i l, entrySynced fs dbL.current e) := by
  intro l
  induction l with
  | nil =>
    intro db cache i dbL _ hwf _ hL
    simp only [processLoop] at hL
    have hdb : db = dbL := Except.ok.inj hL
    subst hdb
    refine ⟨hwf, fun _ _ hs => hs, ?_⟩
    intro x hx
    simp only [processedPfx] at hx
    exact absurd hx (List.not_mem_nil x)
  | cons e rest ih =>
    intro db cache i dbL hsub hwf hco hL
    simp only [processLoop] at hL
    by_cases hcap : mx > 0 ∧ mx ≤ (i : Int)
    · rw [if_pos hcap] at hL
      have hdb : db = dbL := Except.ok.inj hL
      subst hdb
      refine ⟨hwf, fun _ _ hs => hs, ?_⟩
      intro x hx
      simp only [processedPfx, if_pos hcap] at hx
      exact absurd hx (List.not_mem_nil x)
    · rw [if_neg hcap] at hL
      cases hpe : processEntry fs db cache e with
      | error tup =>
        obtain ⟨err, dbE, cE⟩ := tup
        simp only [hpe] at hL
        exact Except.noConfusion hL
      | ok tup =>
        obtain ⟨db1, c1⟩ := tup
        simp only [hpe] at hL
        obtain ⟨hwf1, hco1, hsync1, hpres1⟩ := processEntry_syncs hwf hco hpe
        have hestream : e ∈ stream := hsub e (List.mem_cons_self e rest)
        have hsubr : ∀ x ∈ rest, x ∈ stream := fun x hx =>
          hsub x (List.mem_cons_of_mem e hx)
        by_cases hb : i % 250 = 0
        · rw [if_pos hb] at hL
          obtain ⟨hwfL, hpresL, hpfxL⟩ :=
            ih (commitS db1) c1 (i + 1) dbL hsubr hwf1 hco1 hL
          refine ⟨hwfL, ?_, ?_⟩
          · intro e0 he0 hs0
            exact hpresL e0 he0 (hpres1 e0 hs0 (hpc e0 he0 e hestream))
          · intro x hx
            simp only [processedPfx, if_neg hcap, List.mem_cons] at hx
            rcases hx with hx | hx
            · rw [hx]
              exact hpresL e hestream hsync1
            · exact hpfxL x hx
        · rw [if_neg hb] at hL
          obtain ⟨hwfL, hpresL, hpfxL⟩ :=
            ih db1 c1 (i + 1) dbL hsubr hwf1 hco1 hL
          refine ⟨hwfL, ?_, ?_⟩
          · intro e0 he0 hs0
            exact hpresL e0 he0 (hpres1 e0 hs0 (hpc e0 he0 e hestream))
          · intro x hx
            simp only [processedPfx, if_neg hcap, List.mem_cons] at hx
            rcases hx with hx | hx
            · rw [hx]
              exact hpresL e hestream hsync1
            · exact hpfxL x hx

theorem processLoop_noop (fs : FS) (mx : Int) :
    ∀ (l : List FileInfo) (db : Session) (cache : Cache) (i : Nat)
      (d : Session),
      WFC3 db.current → cacheOK db.current cache →
      db.committed = db.current →
      (∀ e ∈ processedPfx mx i l, entrySynced fs db.current e) →
      (processLoop fs mx db cache i l = .ok d ∨
        ∃ err, processLoop fs mx db cache i l = .error (err, d)) →
      d.current = db.current ∧ d.committed = db.current ∧
      d.insCount = db.insCount ∧ d.updCount = db.updCount := by
  intro l
  induction l with
  | nil =>
    intro db cache i d _ _ hcm hsync hout
    rcases hout with hL | ⟨err, hL⟩
    · simp only [processLoop] at hL
      have hdb : db = d := Except.ok.inj hL
      subst hdb
      exact ⟨rfl, hcm, rfl, rfl⟩
    · simp only [processLoop] at hL
      exact Except.noConfusion hL
  | cons e rest ih =>
    intro db cache i d hwf hco hcm hsync hout
    by_cases hcap : mx > 0 ∧ mx ≤ (i : Int)
    · rcases hout with hL | ⟨err, hL⟩
      · simp only [processLoop, if_pos hcap] at hL
        have hdb : db = d := Except.ok.inj hL
        subst hdb
        exact ⟨rfl, hcm, rfl, rfl⟩
      · simp only [processLoop, if_pos hcap] at hL
        exact Except.noConfusion hL
    · have hse : entrySynced fs db.current e := by
        apply hsync
        simp only [processedPfx, if_neg hcap]
        exact List.mem_cons_self e _
      have hsr : ∀ x ∈ processedPfx mx (i + 1) rest,
          entrySynced fs db.current x := by
        intro x hx
        apply hsync
        simp only [processedPfx, if_neg hcap]
        exact List.mem_cons_of_mem e hx
      rcases processEntry_noWrite hco hse with ⟨c1, hpe, hco1⟩ |
        ⟨err, c1, hpe⟩
      · by_cases hb : i % 250 = 0
        · have hL2 : ∀ hout2 : (processLoop fs mx (commitS db) c1 (i + 1)
              rest = .ok d ∨
              ∃ err, processLoop fs mx (commitS db) c1 (i + 1) rest =
                .error (err, d)),
              d.current = (commitS db).current ∧
              d.committed = (commitS db).current ∧
              d.insCount = (commitS db).insCount ∧
              d.updCount = (commitS db).updCount := fun hout2 =>
            ih (commitS db) c1 (i + 1) d hwf hco1 rfl hsr hout2
          rcases hout with hL | ⟨err2, hL⟩
          · simp only [processLoop, if_neg hcap, hpe, if_pos hb] at hL
            exact hL2 (Or.inl hL)
          · simp only [processLoop, if_neg hcap, hpe, if_pos hb] at hL
            exact hL2 (Or.inr ⟨err2, hL⟩)
        · have hL2 : ∀ hout2 : (processLoop fs mx db c1 (i + 1)
              rest = .ok d ∨
              ∃ err, processLoop fs mx db c1 (i + 1) rest =
                .error (err, d)),
              d.current = db.current ∧ d.committed = db.current ∧
              d.insCount = db.insCount ∧ d.updCount = db.updCount :=
            fun hout2 => ih db c1 (i + 1) d hwf hco1 hcm hsr hout2
          rcases hout with hL | ⟨err2, hL⟩
          · simp only [processLoop, if_neg hcap, hpe, if_neg hb] at hL
            exact hL2 (Or.inl hL)
          · simp only [processLoop, if_neg hcap, hpe, if_neg hb] at hL
            exact hL2 (Or.inr ⟨err2, hL⟩)
      · rcases hout with hL | ⟨err2, hL⟩
        · simp only [processLoop, if_neg hcap, hpe] at hL
          exact Except.noConfusion hL
        · simp only [processLoop, if_neg hcap, hpe] at hL
          have hinj := Except.error.inj hL
          rw [Prod.mk.injEq] at hinj
          have hdb : db = d := hinj.2
          subst hdb
          exact ⟨rfl, hcm, rfl, rfl⟩

theorem sampleStore_wfc3 : WFC3 sampleStore := by
  refine ⟨sampleStore_idWF, by decide, ?_, ?_⟩
  · intro r hr
    have hr2 : r ∈ [sampleRoot] := hr
    rw [List.mem_singleton] at hr2
    subst hr2
    decide
  · intro r1 h1 r2 h2 _ _ _ _
    have h1b : r1 ∈ [sampleRoot] := h1
    have h2b : r2 ∈ [sampleRoot] := h2
    rw [List.mem_singleton] at h1b h2b
    rw [h1b, h2b]

/-- C3: running the reconciliation body twice over the same unchanged
entry stream (one filesystem snapshot, so entries agreeing on
(parent path, name) agree on content and second-truncated mtime)
performs zero inserts and zero updates on the second run: starting
from a well-formed store, if the first run returns without an
exception, the second run leaves the current store literally equal to
the first run's result (no record's `content_hash`/`modified_at`
changes, no new records), leaves it committed, and executes no INSERT
and no UPDATE statement (both statement counters are unchanged) —
whether or not the second run itself raises. -/
theorem c3_idempotent_second_run (db0 db1 : Session)
    (stream : List FileInfo) (fs : FS) (mx : Int)
    (hwf : WFC3 db0.current)
    (hpc : pairCompat fs stream)
    (hrun1 : process_directory_body db0 stream fs mx = (db1, none)) :
    (process_directory_body db1 stream fs mx).1.current = db1.current ∧
    (process_directory_body db1 stream fs mx).1.committed = db1.current ∧
    (process_directory_body db1 stream fs mx).1.insCount = db1.insCount ∧
    (process_directory_body db1 stream fs mx).1.updCount = db1.updCount := by
  unfold process_directory_body at hrun1
  cases hL1 : processLoop fs mx db0 [] 0 stream with
  | error t =>
    obtain ⟨err, dbE⟩ := t
    rw [hL1] at hrun1
    rw [Prod.mk.injEq] at hrun1
    exact Option.noConfusion hrun1.2
  | ok dbL =>
    rw [hL1] at hrun1
    rw [Prod.mk.injEq] at hrun1
    obtain ⟨hdb1, _⟩ := hrun1
    subst hdb1
    obtain ⟨hwfL, _, hpfx⟩ :=
      processLoop_sync fs mx stream hpc stream db0 [] 0 dbL
        (fun x hx => hx) hwf (cacheOK_nil _) hL1
    unfold process_directory_body
    cases hL2 : processLoop fs mx (commitS dbL) [] 0 stream with
    | ok d =>
      have h4 := processLoop_noop fs mx stream (commitS dbL) [] 0 d
        hwfL (cacheOK_nil _) rfl hpfx (Or.inl hL2)
      exact ⟨h4.1, h4.1, h4.2.2.1, h4.2.2.2⟩
    | error t =>
      obtain ⟨err, dE⟩ := t
      have h4 := processLoop_noop fs mx stream (commitS dbL) [] 0 dE
        hwfL (cacheOK_nil _) rfl hpfx (Or.inr ⟨err, hL2⟩)
      exact ⟨h4.2.1, h4.2.1, h4.2.2.1, h4.2.2.2⟩

theorem c3_witness :
    WFC3 sampleSession.current ∧
    pairCompat fsX [entryX] ∧
    process_directory_body sampleSession [entryX] fsX 0 =
      ((process_directory_body sampleSession [entryX] fsX 0).1, none) ∧
    (process_directory_body
        (process_directory_body sampleSession [entryX] fsX 0).1
        [entryX] fsX 0).1.current =
      (process_directory_body sampleSession [entryX] fsX 0).1.current :=
  have hpc : pairCompat fsX [entryX] := by
    intro e1 h1 e2 h2 _ _
    rw [List.mem_singleton] at h1 h2
    subst h1
    subst h2
    exact ⟨rfl, rfl⟩
  ⟨sampleStore_wfc3, hpc, rfl,
    (c3_idempotent_second_run sampleSession
      (process_directory_body sampleSession [entryX] fsX 0).1
      [entryX] fsX 0 sampleStore_wfc3 hpc rfl).1⟩

/-- C6 witness: the amended theorem evaluated concretely — a missing
file is fingerprinted absent and a null-hash row inserted over the
sample store; over a store whose matched record carries a full hash
and mtime, the hash is nulled in place by one UPDATE; over a store
whose matched record already has a null hash, the step raises
`AttributeError` instead of continuing. -/
theorem c6_witness :
    calculate_sha384 fsAllAbsent sampleMissingEntry.full_path = .ok none ∧
    processEntry fsAllAbsent sampleSession [] sampleMissingEntry =
      .ok ({ committed := sampleStore
             current := insertFile sampleStore 1 sampleMissingEntry none
             insCount := 1
             updCount := 0 }, [(slashStr, 1)]) ∧
    processEntry fsAllAbsent sessionX [] entryX =
      .ok ({ sessionX with
              current := updateFile storeX 2 entryX none
              updCount := 1 }, [(slashStr, 1)]) ∧
    processEntry fsAllAbsent sessionNullHash [] entryX =
      .error (.attributeError, sessionNullHash, [(slashStr, 1)]) := by
  refine ⟨?_, ?_, ?_, ?_⟩
  · exact c6_amended_absent_fingerprint.1 fsAllAbsent
      sampleMissingEntry.full_path (Or.inl rfl)
  · exact (c6_amended_absent_fingerprint.2.1 fsAllAbsent sampleSession
      sampleSession [] [(slashStr, 1)] sampleMissingEntry 1
      (Or.inl rfl) (by rfl)).1 (by rfl)
  · exact (c6_amended_absent_fingerprint.2.1 fsAllAbsent sessionX
      sessionX [] [(slashStr, 1)] entryX 1 (Or.inl rfl) (by rfl)).2.1
      recX hX 1700000000123456 (by rfl) rfl rfl
  · exact (c6_amended_absent_fingerprint.2.1 fsAllAbsent sessionNullHash
      sessionNullHash [] [(slashStr, 1)] entryX 1 (Or.inl rfl)
      (by rfl)).2.2 recXNullHash (by rfl) (Or.inr rfl)
